import Mathlib

/-!
# The `ar` archive reader of pnelson/archive

A shallow embedding of `src/ar/reader.go` and `src/ar/common.go`.

* A byte is a natural number, a Go `string` or `[]byte` a `List Nat`.
* The underlying `io.Reader` is an in-memory stream: the list of the bytes not yet
  consumed.  Its `Read` behaves like `bytes.Reader.Read` (and like a regular file): it
  delivers as many bytes as the buffer holds or the stream still has, and reports
  `io.EOF` with zero bytes once the stream is exhausted.
* `int64` values are mathematical integers; the only arithmetic the reader performs on
  them is `Size % 2` (Go's truncated remainder, `Int.tmod`) and the subtraction inside
  `io.LimitedReader`, neither of which can overflow.
* The Go standard-library functions the reader calls (`bytes.TrimSpace`,
  `strconv.ParseInt`, `io.ReadFull`, `io.Copy`, `io.CopyN`, `io.LimitedReader`) are
  modelled after their source and documented contract.
-/

namespace Ar

/-! ## Errors, time and headers -/

/-- The error values that can flow through the reader: `io.EOF`, `io.ErrUnexpectedEOF`,
the package's `ErrMagic` and `ErrHeader`, `os.ErrNotExist`, and the two causes of a
`strconv.NumError` (`strconv.ErrSyntax`, `strconv.ErrRange`). -/
inductive Error where
  | EOF
  | ErrUnexpectedEOF
  | ErrMagic
  | ErrHeader
  | ErrNotExist
  | ErrSyntax
  | ErrRange
  deriving DecidableEq, Repr

/-- A `time.Time` as the reader can produce it: the zero value `time.Time{}` or
`time.Unix(sec, 0)`. -/
inductive Time where
  | zero
  | unix (sec : Int)
  deriving DecidableEq, Repr

/-- The struct `Header` of `common.go`.  `Uid` and `Gid` are Go `int`s; the conversion
`int(...)` of the parsed `int64` is the identity, since a field of six characters holds
a value between -99999 and 999999. -/
structure Header where
  Name : List Nat
  ModTime : Time
  Uid : Int
  Gid : Int
  Mode : Int
  Size : Int
  deriving DecidableEq, Repr

/-- The constant `magic` of `common.go`: the bytes of "!<arch>\n". -/
def magic : List Nat := [33, 60, 97, 114, 99, 104, 62, 10]

/-- The constant `fileMagic` of `common.go`: the bytes 0x60 0x0A. -/
def fileMagic : List Nat := [0x60, 0x0A]

/-- The constant `blockSize` of `common.go`. -/
def blockSize : Nat := 60

/-! ## `unicode/utf8` and `bytes.TrimSpace` -/

/-- The rune `utf8.RuneError`. -/
def RuneError : Nat := 0xFFFD

/-- The function `unicode.IsSpace`: the Latin-1 switch, then the `White_Space` table. -/
def isSpace (r : Nat) : Bool :=
  if r ≤ 0xFF then
    r == 9 || r == 10 || r == 11 || r == 12 || r == 13 || r == 32 || r == 0x85 || r == 0xA0
  else
    r == 0x1680 || (0x2000 ≤ r && r ≤ 0x200A) || r == 0x2028 || r == 0x2029 ||
      r == 0x202F || r == 0x205F || r == 0x3000

/-- The tables `first` and `acceptRanges` of `unicode/utf8` for a lead byte of a
multi-byte sequence: the sequence length and the accepted range of the second byte.
`none` stands for the entries `as` (ASCII) and `xx` (invalid). -/
def firstInfo (p0 : Nat) : Option (Nat × Nat × Nat) :=
  if 0xC2 ≤ p0 ∧ p0 ≤ 0xDF then some (2, 0x80, 0xBF)
  else if p0 = 0xE0 then some (3, 0xA0, 0xBF)
  else if 0xE1 ≤ p0 ∧ p0 ≤ 0xEC then some (3, 0x80, 0xBF)
  else if p0 = 0xED then some (3, 0x80, 0x9F)
  else if 0xEE ≤ p0 ∧ p0 ≤ 0xEF then some (3, 0x80, 0xBF)
  else if p0 = 0xF0 then some (4, 0x90, 0xBF)
  else if 0xF1 ≤ p0 ∧ p0 ≤ 0xF3 then some (4, 0x80, 0xBF)
  else if p0 = 0xF4 then some (4, 0x80, 0x8F)
  else none

/-- The function `utf8.DecodeRune`: the first rune of `p` and its width in bytes;
`(RuneError, 1)` for an invalid encoding and `(RuneError, 0)` for the empty slice. -/
def decodeRune (p : List Nat) : Nat × Nat :=
  match p with
  | [] => (RuneError, 0)
  | p0 :: _ =>
    match firstInfo p0 with
    | none => if p0 < 0x80 then (p0, 1) else (RuneError, 1)
    | some (sz, lo, hi) =>
      if p.length < sz then (RuneError, 1)
      else
        let b1 := p.getD 1 0
        if b1 < lo ∨ hi < b1 then (RuneError, 1)
        else if sz ≤ 2 then (((p0 &&& 0x1F) <<< 6) ||| (b1 &&& 0x3F), 2)
        else
          let b2 := p.getD 2 0
          if b2 < 0x80 ∨ 0xBF < b2 then (RuneError, 1)
          else if sz ≤ 3 then
            (((p0 &&& 0x0F) <<< 12) ||| ((b1 &&& 0x3F) <<< 6) ||| (b2 &&& 0x3F), 3)
          else
            let b3 := p.getD 3 0
            if b3 < 0x80 ∨ 0xBF < b3 then (RuneError, 1)
            else
              (((p0 &&& 0x07) <<< 18) ||| ((b1 &&& 0x3F) <<< 12) ||| ((b2 &&& 0x3F) <<< 6)
                ||| (b3 &&& 0x3F), 4)

/-- The function `utf8.RuneStart`: the byte is not a continuation byte. -/
def RuneStart (b : Nat) : Bool := (b &&& 0xC0) != 0x80

/-- The backward scan of `utf8.DecodeLastRune`
(`for start--; start >= lim; start-- { if RuneStart(p[start]) { break } }`):
`start` is the index about to be tested.  At most `UTFMax` positions are visited. -/
def scanBack (p : List Nat) (lim : Int) : Nat → Int → Int
  | 0, start => start
  | fuel + 1, start =>
    if start < lim then start
    else if RuneStart (p.getD start.toNat 0) then start
    else scanBack p lim fuel (start - 1)

/-- The function `utf8.DecodeLastRune`: the last rune of `p` and its width. -/
def decodeLastRune (p : List Nat) : Nat × Nat :=
  if p.length = 0 then (RuneError, 0)
  else
    let last := p.getD (p.length - 1) 0
    if last < 0x80 then (last, 1)
    else
      let lim : Int := max ((p.length : Int) - 4) 0
      let start := max (scanBack p lim 4 ((p.length : Int) - 2)) 0
      let (r, size) := decodeRune (p.drop start.toNat)
      if start.toNat + size ≠ p.length then (RuneError, 1) else (r, size)

/-- The function `bytes.TrimLeftFunc(s, unicode.IsSpace)`: the loop of `indexFunc` walks
the runes from the left; `skip` counts the bytes of the current rune still to be stepped
over (`start += wid`).  The result is `s[i:]` for the first non-space rune at `i`, and
the empty slice when there is none. -/
def trimLeftGo : List Nat → Nat → List Nat
  | [], _ => []
  | _ :: rest, skip + 1 => trimLeftGo rest skip
  | b :: rest, 0 =>
    let (r, wid) := if b < 0x80 then (b, 1) else decodeRune (b :: rest)
    if isSpace r then trimLeftGo rest (wid - 1) else b :: rest

/-- The loop of `lastIndexFunc(s, unicode.IsSpace, false)` on the reversed slice: the
argument is `s[0:i]` reversed, `skip` the bytes of the current rune still to be stepped
over (`i -= size`).  The result is the index of the last non-space rune, `none` for -1. -/
def lastIndexGo : List Nat → Nat → Option Nat
  | [], _ => none
  | _ :: rest, skip + 1 => lastIndexGo rest skip
  | b :: rest, 0 =>
    let (r, size) := if b < 0x80 then (b, 1) else decodeLastRune (b :: rest).reverse
    if isSpace r then lastIndexGo rest (size - 1) else some ((b :: rest).length - size)

/-- The function `bytes.TrimRightFunc(s, unicode.IsSpace)`. -/
def trimRight (s : List Nat) : List Nat :=
  match lastIndexGo s.reverse 0 with
  | some i =>
    if s.getD i 0 ≥ 0x80 then s.take (i + (decodeRune (s.drop i)).2) else s.take (i + 1)
  | none => s.take 0

/-- The function `bytes.TrimSpace`: `TrimFunc(s, unicode.IsSpace)`, that is
`TrimRightFunc(TrimLeftFunc(s, f), f)`; the ASCII fast path of newer Go versions computes
the same slice. -/
def trimSpace (s : List Nat) : List Nat :=
  trimRight (trimLeftGo s 0)

/-! ## `strconv.ParseInt` -/

/-- The digit value of a byte in `strconv.ParseUint`: `0-9`, `a-z`, `A-Z`. -/
def digitVal (c : Nat) : Option Nat :=
  if 48 ≤ c ∧ c ≤ 57 then some (c - 48)
  else if 97 ≤ c ∧ c ≤ 122 then some (c - 97 + 10)
  else if 65 ≤ c ∧ c ≤ 90 then some (c - 65 + 10)
  else none

/-- The constant `maxUint64`. -/
def maxUint64 : Nat := 2 ^ 64 - 1

/-- The digit loop of `strconv.ParseUint(s, base, 64)` for `2 ≤ base ≤ 36`; `n` is the
accumulator.  A byte that is no digit of the base is a syntax error; an accumulator at
or beyond `cutoff = maxUint64/base + 1`, or a sum beyond `maxUint64`, is a range error. -/
def parseUintLoop (base : Nat) : List Nat → Nat → Except Error Nat
  | [], n => .ok n
  | c :: rest, n =>
    match digitVal c with
    | none => .error Error.ErrSyntax
    | some d =>
      if d ≥ base then .error Error.ErrSyntax
      else if n ≥ maxUint64 / base + 1 then .error Error.ErrRange
      else
        let n1 := n * base + d
        if n1 > maxUint64 then .error Error.ErrRange
        else parseUintLoop base rest n1

/-- The function `strconv.ParseUint(s, base, 64)` for `2 ≤ base ≤ 36`. -/
def parseUint (s : List Nat) (base : Nat) : Except Error Nat :=
  if s = [] then .error Error.ErrSyntax else parseUintLoop base s 0

/-- The function `strconv.ParseInt(s, base, 64)` for `2 ≤ base ≤ 36`: an optional sign,
then `ParseUint`, then the range check against `cutoff = 1 << 63`. -/
def parseInt (s : List Nat) (base : Nat) : Except Error Int :=
  match s with
  | [] => .error Error.ErrSyntax
  | c :: rest =>
    let neg := c == 45
    let body := if c == 43 || c == 45 then rest else s
    match parseUint body base with
    | .error e => .error e
    | .ok un =>
      if !neg && un ≥ 2 ^ 63 then .error Error.ErrRange
      else if neg && un > 2 ^ 63 then .error Error.ErrRange
      else .ok (if neg then -(un : Int) else (un : Int))

/-! ## `io` on the in-memory stream -/

/-- The method `Read` of the underlying stream for a buffer of length `len`: the bytes
delivered, the error, and the stream left. -/
def streamRead (s : List Nat) (len : Nat) : List Nat × Option Error × List Nat :=
  if s = [] then ([], some Error.EOF, [])
  else (s.take len, none, s.drop len)

/-- The method `io.LimitedReader.Read` for the limited reader `{R: stream, N: n}` and a
buffer of length `len`: the bytes delivered, the error, the stream left and the new `N`. -/
def limitedRead (s : List Nat) (n : Int) (len : Nat) :
    List Nat × Option Error × List Nat × Int :=
  if n ≤ 0 then ([], some Error.EOF, s, n)
  else
    let len1 := if (len : Int) > n then n.toNat else len
    let (bs, e, s1) := streamRead s len1
    (bs, e, s1, n - (bs.length : Int))

/-- The call `io.Copy(ioutil.Discard, &l)` for the limited reader `l = {R: stream, N: n}`:
it reads until `l` reports `io.EOF`, that is until `N` bytes have been discarded or the
stream is exhausted, and returns a nil error.  The result is the error, the stream left
and the new `N`. -/
def copyDiscard (s : List Nat) (n : Int) : Option Error × List Nat × Int :=
  let k := min n.toNat s.length
  (none, s.drop k, n - (k : Int))

/-- The call `io.CopyN(ioutil.Discard, stream, n)`: `n` bytes are discarded; a stream that
ends earlier is consumed whole and the error is `io.EOF`. -/
def copyNDiscard (s : List Nat) (n : Nat) : Option Error × List Nat :=
  if n ≤ s.length then (none, s.drop n) else (some Error.EOF, [])

/-- The call `io.ReadFull(stream, buf)` with `len(buf) = len`: the bytes read, the error
and the stream left.  The error is `io.EOF` when no byte could be read and
`io.ErrUnexpectedEOF` when the stream ended after some but not all bytes. -/
def readFull (s : List Nat) (len : Nat) : List Nat × Option Error × List Nat :=
  if len ≤ s.length then (s.take len, none, s.drop len)
  else if s = [] then ([], some Error.EOF, [])
  else (s, some Error.ErrUnexpectedEOF, [])

/-! ## The loops of package `io`

`copyDiscard`, `copyNDiscard` and `readFull` above give the outcome of the library calls
in closed form.  The definitions below follow the loops of the library source, call by
call; the section "The closed forms agree with the loops of package io" proves that
they compute the same. -/

/-- The loop of `ioutil.Discard.ReadFrom`, through which `io.Copy(ioutil.Discard, &l)`
runs: it reads from the limited reader `l = {R: stream, N: n}` into a buffer of 8192
bytes until `Read` reports an error, and returns nil when that error is `io.EOF`.  At
most `fuel` calls of `Read` are made. -/
def discardLoop : Nat → List Nat → Int → Option Error × List Nat × Int
  | 0, s, n => (none, s, n)
  | fuel + 1, s, n =>
    match limitedRead s n 8192 with
    | (_, some Error.EOF, s1, n1) => (none, s1, n1)
    | (_, some e, s1, n1) => (some e, s1, n1)
    | (_, none, s1, n1) => discardLoop fuel s1 n1

/-- The loop of `io.ReadAtLeast(stream, buf, len(buf))`, which is `io.ReadFull`
(`for n < min && err == nil { nn, err = r.Read(buf[n:]); n += nn }`): `got` holds the
bytes read so far, `len` is the length of the buffer.  The result is the bytes read, the
error of the last `Read` and the stream left.  At most `fuel` calls of `Read` are made. -/
def readAtLeastLoop (len : Nat) : Nat → List Nat → List Nat →
    List Nat × Option Error × List Nat
  | 0, got, s => (got, none, s)
  | fuel + 1, got, s =>
    if got.length < len then
      match streamRead s (len - got.length) with
      | (bs, some e, s1) => (got ++ bs, some e, s1)
      | (bs, none, s1) => readAtLeastLoop len fuel (got ++ bs) s1
    else (got, none, s)

/-- The function `io.ReadFull` by its source: the loop, then
`if n >= min { err = nil } else if n > 0 && err == EOF { err = ErrUnexpectedEOF }`. -/
def readFullLoop (s : List Nat) (len : Nat) : List Nat × Option Error × List Nat :=
  match readAtLeastLoop len (len + 1) [] s with
  | (got, e, s1) =>
    if got.length ≥ len then (got, none, s1)
    else if got.length > 0 ∧ e = some Error.EOF then (got, some Error.ErrUnexpectedEOF, s1)
    else (got, e, s1)

/-- The function `io.CopyN(ioutil.Discard, stream, n)` by its source:
`written, err = Copy(dst, LimitReader(src, n))`, then nil when `written == n` and
`io.EOF` when fewer bytes were written without an error. -/
def copyNLoop (s : List Nat) (n : Nat) : Option Error × List Nat :=
  match discardLoop (s.length + 1) s (n : Int) with
  | (e, s1, n1) =>
    let written : Int := (n : Int) - n1
    if written = (n : Int) then (none, s1)
    else if written < (n : Int) ∧ e = none then (some Error.EOF, s1)
    else (e, s1)

/-! ## The reader -/

/-- The struct `Reader` of `reader.go`.  `r` is the underlying stream (the bytes not yet
consumed); `dataR` says whether `data.R` is non-nil (it is only ever set to `r`), `dataN`
is `data.N`.  The code sets `data.R` and `data.N` together, so `data.N` is 0 as long as
`data.R` is nil and the limited reader `data` always reads from `r`. -/
structure Reader where
  r : List Nat
  err : Option Error
  valid : Bool
  padded : Bool
  dataR : Bool
  dataN : Int
  deriving DecidableEq, Repr

/-- The function `NewReader`. -/
def NewReader (r : List Nat) : Reader :=
  { r := r, err := none, valid := false, padded := false, dataR := false, dataN := 0 }

/-- The slice expression `b[lo:hi]`. -/
def slice (b : List Nat) (lo hi : Nat) : List Nat :=
  (b.drop lo).take (hi - lo)

/-- The method `Reader.readInt`: the parsed value, or 0 with `ar.err` set. -/
def readInt (ar : Reader) (b : List Nat) (base : Nat) : Int × Reader :=
  match parseInt (trimSpace b) base with
  | .error e => (0, { ar with err := some e })
  | .ok rv => (rv, ar)

/-- The method `Reader.modTime`. -/
def modTime (ar : Reader) (b : List Nat) : Time × Reader :=
  let (rv, ar1) := readInt ar b 10
  if rv = 0 then (Time.zero, ar1) else (Time.unix rv, ar1)

/-- The method `Reader.readHeader`. -/
def readHeader (ar : Reader) : Option Header × Reader :=
  let (raw, e, s) := readFull ar.r blockSize
  let ar := { ar with r := s }
  match e with
  | some err => (none, { ar with err := some err })
  | none =>
    if slice raw (blockSize - 2) blockSize ≠ fileMagic then
      (none, { ar with err := some Error.ErrHeader })
    else
      let name := trimSpace (slice raw 0 16)
      let (mtime, ar) := modTime ar (slice raw 16 28)
      let (uid, ar) := readInt ar (slice raw 28 34) 10
      let (gid, ar) := readInt ar (slice raw 34 40) 10
      let (mode, ar) := readInt ar (slice raw 40 48) 8
      let (size, ar) := readInt ar (slice raw 48 58) 10
      if ar.err ≠ none then
        (none, { ar with err := some Error.ErrHeader })
      else
        (some { Name := name, ModTime := mtime, Uid := uid, Gid := gid, Mode := mode,
                Size := size },
         { ar with dataR := true, dataN := size, padded := decide (Int.tmod size 2 = 1) })

/-- The method `Reader.skipUnread`. -/
def skipUnread (ar : Reader) : Reader :=
  let (e, s, n) := copyDiscard ar.r ar.dataN
  let ar := { ar with r := s, dataN := n, err := e }
  if ar.padded then
    let (c, e1, s1) := streamRead ar.r 1
    let ar := { ar with r := s1, err := e1 }
    if c.getD 0 0 ≠ 10 then { ar with err := some Error.ErrHeader } else ar
  else ar

/-- The method `Reader.validate`. -/
def validate (ar : Reader) : Option Error × Reader :=
  let (e, s) := copyNDiscard ar.r magic.length
  let ar := { ar with r := s }
  match e with
  | some err => (some err, ar)
  | none => (none, { ar with valid := true })

/-- The method `Reader.Next`: the header, the error and the reader afterwards. -/
def Next (ar : Reader) : Option Header × Option Error × Reader :=
  let ar := if ar.err = none then skipUnread ar else ar
  match ar.err with
  | some e => (none, some e, ar)
  | none =>
    let (ve, ar) := if !ar.valid then validate ar else (none, ar)
    match ve with
    | some _ => (none, some Error.ErrMagic, ar)
    | none =>
      match readHeader ar with
      | (none, ar) => (none, ar.err, ar)
      | (some header, ar) => (some header, none, ar)

/-- The method `Reader.Read` for a buffer of length `len`: the bytes stored into the
buffer (`b[0:n]`), the error and the reader afterwards. -/
def Read (ar : Reader) (len : Nat) : List Nat × Option Error × Reader :=
  match ar.err with
  | some e => ([], some e, ar)
  | none =>
    if !ar.dataR then ([], some Error.ErrNotExist, ar)
    else
      let (bs, e, s, n) := limitedRead ar.r ar.dataN len
      (bs, e, { ar with r := s, dataN := n })

/-! ## `Header.FileInfo` -/

/-- The conversion `os.FileMode(m)` of an `int64`: `os.FileMode` is a `uint32`, the
conversion keeps the low 32 bits. -/
def FileMode (m : Int) : Nat := (m % 2 ^ 32).toNat

/-- The constant `os.ModePerm`: 0777. -/
def ModePerm : Nat := 0o777

/-- The method `os.FileMode.Perm`: `m & ModePerm`. -/
def Perm (m : Nat) : Nat := m &&& ModePerm

/-- The struct `headerFileInfo` of `common.go`. -/
structure headerFileInfo where
  h : Header
  deriving DecidableEq, Repr

/-- The method `Header.FileInfo`. -/
def Header.FileInfo (h : Header) : headerFileInfo := { h := h }

/-- The method `headerFileInfo.Name`. -/
def headerFileInfo.Name (fi : headerFileInfo) : List Nat := fi.h.Name

/-- The method `headerFileInfo.Size`. -/
def headerFileInfo.Size (fi : headerFileInfo) : Int := fi.h.Size

/-- The method `headerFileInfo.Mode`. -/
def headerFileInfo.Mode (fi : headerFileInfo) : Nat := Perm (FileMode fi.h.Mode)

/-- The method `headerFileInfo.ModTime`. -/
def headerFileInfo.ModTime (fi : headerFileInfo) : Time := fi.h.ModTime

/-- The method `headerFileInfo.IsDir`. -/
def headerFileInfo.IsDir (_fi : headerFileInfo) : Bool := false

/-- The method `headerFileInfo.Sys`. -/
def headerFileInfo.Sys (fi : headerFileInfo) : Header := fi.h

/-! ## Callers of the reader -/

/-- A caller that drains the current member like `ioutil.ReadAll`: it calls `Read` with a
buffer of `len` bytes until `Read` reports an error, at most `fuel` times.  The result is
the bytes collected, the error that ended the loop (`none` when the calls ran out before
`Read` reported one) and the reader afterwards. -/
def readAll (len : Nat) : Nat → Reader → List Nat × Option Error × Reader
  | 0, ar => ([], none, ar)
  | fuel + 1, ar =>
    match Read ar len with
    | (bs, some e, ar1) => (bs, some e, ar1)
    | (bs, none, ar1) =>
      let (bs2, e2, ar2) := readAll len fuel ar1
      (bs ++ bs2, e2, ar2)

/-- A caller that alternates `Next` with draining the member (the loop of `TestReader`),
for at most `k` calls of `Next`: the headers with the content read for each, the error
that ended the loop (`none` when `k` calls did not reach one) and the reader afterwards. -/
def readArchive (len fuel : Nat) : Nat → Reader →
    List (Header × List Nat) × Option Error × Reader
  | 0, ar => ([], none, ar)
  | k + 1, ar =>
    match Next ar with
    | (none, e, ar1) => ([], e, ar1)
    | (some h, _, ar1) =>
      match readAll len fuel ar1 with
      | (bs, some Error.EOF, ar2) =>
        let (rest, e, ar3) := readArchive len fuel k ar2
        ((h, bs) :: rest, e, ar3)
      | (bs, e, ar2) => ([(h, bs)], e, ar2)

/-- A caller that issues `Read` calls with the given buffer lengths, one after the other,
ignoring what they return: the reader afterwards. -/
def readMany (ar : Reader) (lens : List Nat) : Reader :=
  lens.foldl (fun a len => (Read a len).2.2) ar

/-- One call of a caller: `Next`, or `Read` with a buffer of the given length. -/
inductive Op where
  | next
  | read (len : Nat)
  deriving DecidableEq, Repr

/-- What an operation returns (the header of `Next`, the bytes of `Read`, the error) and
the reader afterwards. -/
def Op.run (ar : Reader) : Op → Option Header × List Nat × Option Error × Reader
  | Op.next => let (h, e, ar1) := Next ar; (h, [], e, ar1)
  | Op.read len => let (bs, e, ar1) := Read ar len; (none, bs, e, ar1)

/-- The reader after a sequence of operations. -/
def runOps (ar : Reader) (ops : List Op) : Reader :=
  ops.foldl (fun a op => (op.run a).2.2.2) ar

/-! ## The archive layout -/

/-- A member as it is laid out in an archive file: the name, the numerals of the five
numeric header fields (as written, without padding) and the content. -/
structure Member where
  name : List Nat
  mtime : List Nat
  uid : List Nat
  gid : List Nat
  mode : List Nat
  size : List Nat
  content : List Nat
  deriving DecidableEq, Repr

/-- A field padded with spaces on the right to the width `w`. -/
def padRight (w : Nat) (s : List Nat) : List Nat :=
  s ++ List.replicate (w - s.length) 32

/-- A byte string is a numeral of the base (at most ten) fitting a field of width `w`:
one to `w` digits, each below the base. -/
def isNumeral (base w : Nat) (ds : List Nat) : Bool :=
  !ds.isEmpty && decide (ds.length ≤ w) && ds.all (fun c => decide (48 ≤ c ∧ c < 48 + base))

/-- The number a numeral denotes in the base. -/
def numVal (base : Nat) (ds : List Nat) : Nat :=
  ds.foldl (fun n c => n * base + (c - 48)) 0

/-- A byte string is a member name fitting its field: at most 16 ASCII bytes, neither
the first nor the last of them white space. -/
def isName (n : List Nat) : Bool :=
  decide (n.length ≤ 16) && n.all (fun c => decide (c < 128)) &&
    !isSpace (n.headD 0) && !isSpace (n.reverse.headD 0)

/-- A member is well formed: its name and numerals fit their fields (mtime, uid, gid and
size decimal, mode octal) and the size numeral denotes the length of the content. -/
def Member.wellFormed (m : Member) : Bool :=
  isName m.name && isNumeral 10 12 m.mtime && isNumeral 10 6 m.uid && isNumeral 10 6 m.gid &&
    isNumeral 8 8 m.mode && isNumeral 10 10 m.size && decide (numVal 10 m.size = m.content.length)

/-- The 60-byte header block of a member. -/
def encodeHeader (m : Member) : List Nat :=
  padRight 16 m.name ++ padRight 12 m.mtime ++ padRight 6 m.uid ++ padRight 6 m.gid ++
    padRight 8 m.mode ++ padRight 10 m.size ++ fileMagic

/-- The pad byte that follows content of odd length. -/
def padByte (m : Member) : List Nat :=
  if m.content.length % 2 = 1 then [10] else []

/-- The bytes of the members of an archive, one after the other. -/
def encodeMembers : List Member → List Nat
  | [] => []
  | m :: ms => encodeHeader m ++ m.content ++ padByte m ++ encodeMembers ms

/-- The bytes of an archive: the global magic string, then the members. -/
def encodeArchive (ms : List Member) : List Nat :=
  magic ++ encodeMembers ms

/-- The header the fields of a member denote. -/
def Member.header (m : Member) : Header :=
  { Name := m.name
    ModTime := if numVal 10 m.mtime = 0 then Time.zero else Time.unix (numVal 10 m.mtime)
    Uid := numVal 10 m.uid
    Gid := numVal 10 m.gid
    Mode := numVal 8 m.mode
    Size := numVal 10 m.size }

/-! ## Notions used in the statements -/

/-- The end of `Next`: what it returns for the result of `readHeader`. -/
def headerResult : Option Header × Reader → Option Header × Option Error × Reader
  | (none, ar) => (none, ar.err, ar)
  | (some header, ar) => (some header, none, ar)

/-- The position of `Next` when it comes to read a header block: `some s` when the call
gets that far (no error recorded, the skip of the previous member and the validation of
the magic string succeed) with `s` the stream from there on, `none` when it does not. -/
def atHeader (ar : Reader) : Option (List Nat) :=
  match ar.err with
  | some _ => none
  | none =>
    let ar1 := skipUnread ar
    match ar1.err with
    | some _ => none
    | none =>
      if ar1.valid then some ar1.r
      else
        match validate ar1 with
        | (some _, _) => none
        | (none, ar2) => some ar2.r

/-- A header field parses as an integer of the base: `strconv.ParseInt` accepts its text
after `bytes.TrimSpace`. -/
def parses (b : List Nat) (base : Nat) : Bool :=
  match parseInt (trimSpace b) base with
  | .ok _ => true
  | .error _ => false

/-- The header block `Next` reads: the first `blockSize` bytes at the position `atHeader`
(fewer when the stream ends earlier, none when `Next` does not get that far). -/
def headerBlock (ar : Reader) : List Nat :=
  ((atHeader ar).getD []).take blockSize

/-- A header block is acceptable: it ends in the terminator and its five numeric fields
parse, mtime, uid, gid and size in base 10 and mode in base 8. -/
def blockOk (raw : List Nat) : Bool :=
  decide (slice raw 58 60 = fileMagic) && parses (slice raw 16 28) 10 &&
    parses (slice raw 28 34) 10 && parses (slice raw 34 40) 10 &&
    parses (slice raw 40 48) 8 && parses (slice raw 48 58) 10

/-- What `Next` does when the validation is left out: the skip of the previous member,
the check of the recorded error, then `readHeader`. -/
def nextWithoutValidate (ar : Reader) : Option Header × Option Error × Reader :=
  let ar := if ar.err = none then skipUnread ar else ar
  match ar.err with
  | some e => (none, some e, ar)
  | none => headerResult (readHeader ar)

/-- Some operation of the sequence, run from the reader `ar`, returns a header. -/
def anyHeader : Reader → List Op → Bool
  | _, [] => false
  | ar, op :: ops => (op.run ar).1.isSome || anyHeader (op.run ar).2.2.2 ops

/-- The header most recently returned by `Next` when the operations are run from the
reader `ar`; `last` is the one returned before them, if any. -/
def lastHeader : Reader → Option Header → List Op → Option Header
  | _, last, [] => last
  | ar, last, op :: ops =>
    lastHeader (op.run ar).2.2.2
      (match (op.run ar).1 with
        | some h => some h
        | none => last) ops

/-- The remaining count is within the size of the most recently returned header; it is 0
as long as no header has been returned. -/
def withinLast (ar : Reader) : Option Header → Prop
  | none => ar.dataN = 0
  | some h => ar.dataN ≤ h.Size

/-! ## Sample archives -/

/-- The bytes of "debian-binary". -/
def nameDebianBinary : List Nat := [100, 101, 98, 105, 97, 110, 45, 98, 105, 110, 97, 114, 121]

/-- The bytes of "control.tar.gz". -/
def nameControl : List Nat := [99, 111, 110, 116, 114, 111, 108, 46, 116, 97, 114, 46, 103, 122]

/-- The bytes of "1393442320". -/
def mtimeSample : List Nat := [49, 51, 57, 51, 52, 52, 50, 51, 50, 48]

/-- The bytes of "100644". -/
def modeSample : List Nat := [49, 48, 48, 54, 52, 52]

/-- The member "debian-binary" of `testdata/empty.deb`: four bytes, "2.0\n". -/
def memberDebianBinary : Member :=
  { name := nameDebianBinary, mtime := mtimeSample, uid := [48], gid := [48],
    mode := modeSample, size := [52], content := [50, 46, 48, 10] }

/-- A member of odd size: "control.tar.gz" holding the three bytes "abc". -/
def memberOdd : Member :=
  { name := nameControl, mtime := [48], uid := [48], gid := [48],
    mode := modeSample, size := [51], content := [97, 98, 99] }

/-- A member without content. -/
def memberEmpty : Member :=
  { name := nameControl, mtime := mtimeSample, uid := [48], gid := [48],
    mode := modeSample, size := [48], content := [] }

/-- A sample archive of three members. -/
def sampleMembers : List Member := [memberDebianBinary, memberOdd, memberEmpty]

/-- Eight bytes that are not the magic string: "XXXXXXXX". -/
def badMagic : List Nat := [88, 88, 88, 88, 88, 88, 88, 88]

/-- The bytes of a header block whose size field reads "-1": the name "a", mtime, uid and
gid "0", mode "644". -/
def negativeSizeHeader : List Nat :=
  padRight 16 [97] ++ padRight 12 [48] ++ padRight 6 [48] ++ padRight 6 [48] ++
    padRight 8 [54, 52, 52] ++ padRight 10 [45, 49] ++ fileMagic

/-- The bytes of a header block whose uid, gid and size fields read "-1", "-2" and "-3". -/
def negativeFieldsHeader : List Nat :=
  padRight 16 [97] ++ padRight 12 [48] ++ padRight 6 [45, 49] ++ padRight 6 [45, 50] ++
    padRight 8 [54, 52, 52] ++ padRight 10 [45, 51] ++ fileMagic

end Ar

/-!
# The package assembler of pnelson/archive

A shallow embedding of `src/deb/reader.go` and `src/deb/common.go`.  Strings are lists of
bytes, the map `Fields` is a function from keys to optional values.  The external
collaborators of `NewPackage` (the file system, `compress/gzip`, `archive/tar`, the hash
functions) are parameters: what they return is given, not computed.
-/

namespace Deb

open Ar

/-! ## Errors and the package -/

/-- The error values of package `deb`: the errors of the `ar` reader passed on
(`io.EOF` among them), the four errors of the package, and the errors of the external
collaborators, told apart by a number. -/
inductive Error where
  | ar (e : Ar.Error)
  | ErrControl
  | ErrData
  | ErrFormat
  | ErrField
  | external (code : Nat)
  deriving DecidableEq, Repr

/-- The error `io.EOF`. -/
def EOF : Error := Error.ar Ar.Error.EOF

/-- The type `map[string]string`: `none` for a key the map does not hold. -/
abbrev Fields := List Nat → Option (List Nat)

/-- The empty map `make(map[string]string)`. -/
def emptyFields : Fields := fun _ => none

/-- The map read `m[k]`: the empty string for a key the map does not hold. -/
def mapGet (m : Fields) (k : List Nat) : List Nat := (m k).getD []

/-- The map write `m[k] = v`. -/
def mapSet (m : Fields) (k v : List Nat) : Fields :=
  fun key => if key = k then some v else m key

/-- The struct `Package` of `common.go`. -/
structure Package where
  Path : List Nat
  Name : List Nat
  Size : Int
  Files : List (List Nat)
  Fields : Fields
  ControlData : List Nat
  PreInstData : List Nat
  PreRmData : List Nat
  PostInstData : List Nat
  PostRmData : List Nat

/-! ## Package `strings` -/

/-- The function `strings.HasPrefix(s, p)`. -/
def startsWith : List Nat → List Nat → Bool
  | _, [] => true
  | [], _ :: _ => false
  | c :: s, d :: p => c == d && startsWith s p

/-- The function `strings.Index(s, sep)`: the index of the first instance of `sep` in
`s`, `none` for -1. -/
def stringsIndex (sep : List Nat) : List Nat → Option Nat
  | [] => if sep = [] then some 0 else none
  | c :: s => if startsWith (c :: s) sep then some 0 else (stringsIndex sep s).map (· + 1)

/-- The function `strings.Count(s, sep)` for a non-empty `sep`: the number of
non-overlapping instances, counted by the loop `i := Index(s, sep); s = s[i+len(sep):]`,
which runs at most `fuel` times. -/
def stringsCount (sep : List Nat) : Nat → List Nat → Nat
  | 0, _ => 0
  | fuel + 1, s =>
    match stringsIndex sep s with
    | none => 0
    | some i => stringsCount sep fuel (s.drop (i + sep.length)) + 1

/-- The loop of `genSplit(s, sep, 0, n)` in package `strings` for a non-empty `sep`: at
most `cuts = n - 1` cuts at instances of `sep`, then the rest. -/
def genSplitLoop (sep : List Nat) : Nat → List Nat → List (List Nat)
  | 0, s => [s]
  | cuts + 1, s =>
    match stringsIndex sep s with
    | none => [s]
    | some m => s.take m :: genSplitLoop sep cuts (s.drop (m + sep.length))

/-- The function `strings.SplitN(s, sep, n)` for a non-empty `sep` and `n > 0`:
`genSplit(s, sep, 0, n)`, where `n` is first limited to `len(s) + 1`. -/
def stringsSplitN (s sep : List Nat) (n : Nat) : List (List Nat) :=
  genSplitLoop sep (min n (s.length + 1) - 1) s

/-- The function `strings.Split(s, sep)` for a non-empty `sep`: `genSplit(s, sep, 0, -1)`,
which sets `n = Count(s, sep) + 1`. -/
def stringsSplit (s sep : List Nat) : List (List Nat) :=
  genSplitLoop sep (min (stringsCount sep (s.length + 1) s + 1) (s.length + 1) - 1) s

/-- The lines of a text, cut at every byte `b`, by plain recursion over the bytes: what
`strings.Split(s, sep)` returns for the one-byte separator `sep = [b]` (theorem
`stringsSplit_byte`). -/
def splitAtByte (b : Nat) : List Nat → List (List Nat)
  | [] => [[]]
  | c :: s =>
    if c = b then [] :: splitAtByte b s
    else
      match splitAtByte b s with
      | l :: ls => (c :: l) :: ls
      | [] => [[c]]

/-- The separator ": " of a control field. -/
def fieldSep : List Nat := [58, 32]

/-! ## `parseFields` -/

/-- The loop of `Package.parseFields` over the lines: `prev` and the map are its state.
The result is the error returned (`none` for nil), and `prev` and the map at that
point. -/
def parseLoop : List (List Nat) → List Nat → Fields → Option Error × List Nat × Fields
  | [], prev, fields => (none, prev, fields)
  | line :: rest, prev, fields =>
    let trimmed := trimSpace line
    if trimmed = [] then parseLoop rest prev fields
    else if line.getD 0 0 = 32 ∨ line.getD 0 0 = 9 then
      parseLoop rest prev (mapSet fields prev (mapGet fields prev ++ ([10] ++ line.drop 1)))
    else
      let parts := stringsSplitN trimmed fieldSep 2
      if parts.length ≠ 2 then (some Error.ErrField, prev, fields)
      else
        let key := parts.getD 0 []
        let value := parts.getD 1 []
        parseLoop rest key (mapSet fields key value)

/-- The method `Package.parseFields`: the error and the package afterwards. -/
def parseFields (p : Package) : Option Error × Package :=
  let lines := stringsSplit p.ControlData [10]
  let (e, _, fields) := parseLoop lines [] p.Fields
  (e, { p with Fields := fields })

/-- The key of a field line: the text before the first ": " of the trimmed line (the
whole trimmed line when there is none). -/
def fieldKey (line : List Nat) : List Nat :=
  match stringsIndex fieldSep (trimSpace line) with
  | some i => (trimSpace line).take i
  | none => trimSpace line

/-- The value of a field line: the text after the first ": " of the trimmed line. -/
def fieldValue (line : List Nat) : List Nat :=
  match stringsIndex fieldSep (trimSpace line) with
  | some i => (trimSpace line).drop (i + fieldSep.length)
  | none => []

/-- A line is a key line: it is not blank after trimming and does not begin with a space
or a tab. -/
def isKeyLine (line : List Nat) : Bool :=
  decide (trimSpace line ≠ []) && !(line.head? == some 32) && !(line.head? == some 9)

/-- A line is a continuation line: it is not blank after trimming and begins with a space
or a tab. -/
def isContinuation (line : List Nat) : Bool :=
  decide (trimSpace line ≠ []) && (line.head? == some 32 || line.head? == some 9)

/-- The key of the most recent key line among the lines, the empty string when there is
none. -/
def lastKey : List (List Nat) → List Nat
  | [] => []
  | line :: rest =>
    if rest.any isKeyLine then lastKey rest
    else if isKeyLine line then fieldKey line
    else []

/-! ## `NewPackage` and its collaborators -/

/-- An entry delivered by a `tar.Reader`: the name of its header, whether
`hdr.FileInfo().IsDir()` holds, and what `ioutil.ReadAll` returns for its content. -/
structure TarEntry where
  Name : List Nat
  IsDir : Bool
  data : Except Error (List Nat)

/-- A `tar.Reader` as its caller observes it: the entries its `Next` returns one after
the other, and the error `Next` returns after them (`io.EOF` at the regular end of the
tar stream). -/
structure TarReader where
  entries : List TarEntry
  last : Error

/-- What `NewTarGzReader(ar)` and the tar reader it returns do with the `ar` reader:
`opened` is the result of `NewTarGzReader` (the error of `gzip.NewReader`, or the tar
reader), `reads` are the buffer lengths of the `Read` calls made on `ar` in all. -/
structure TarGz where
  opened : Except Error TarReader
  reads : List Nat

/-- The external collaborators of `NewPackage`: `openFile` stands for `os.Open` and
`f.Stat` (the base name and the bytes of the file, or the error), `tarGz` for
`compress/gzip` and `archive/tar` reading from the `ar` reader in a given state,
`readFile` for `ioutil.ReadFile`, and `md5`, `sha1`, `sha256` for the hexadecimal
digests. -/
structure Collaborators where
  openFile : List Nat → Except Error (List Nat × List Nat)
  tarGz : Reader → TarGz
  readFile : List Nat → Except Error (List Nat)
  md5 : List Nat → List Nat
  sha1 : List Nat → List Nat
  sha256 : List Nat → List Nat

/-- The bytes of "control.tar.gz". -/
def nameControlTarGz : List Nat := [99, 111, 110, 116, 114, 111, 108, 46, 116, 97, 114, 46, 103, 122]

/-- The bytes of "data.tar". -/
def nameDataTar : List Nat := [100, 97, 116, 97, 46, 116, 97, 114]

/-- The bytes of "data.tar.bz2". -/
def nameDataTarBz2 : List Nat := nameDataTar ++ [46, 98, 122, 50]

/-- The bytes of "data.tar.gz". -/
def nameDataTarGz : List Nat := nameDataTar ++ [46, 103, 122]

/-- The bytes of "data.tar.lzma". -/
def nameDataTarLzma : List Nat := nameDataTar ++ [46, 108, 122, 109, 97]

/-- The bytes of "data.tar.xz". -/
def nameDataTarXz : List Nat := nameDataTar ++ [46, 120, 122]

/-- The loop of `Package.readControl` over the entries of the tar reader. -/
def readControlLoop : List TarEntry → Error → Package → Option Error × Package
  | [], last, p => if last ≠ EOF then (some last, p) else (none, p)
  | entry :: rest, last, p =>
    match entry.data with
    | .error err => (some err, p)
    | .ok buf =>
      let p1 :=
        if entry.Name = [46, 47, 99, 111, 110, 116, 114, 111, 108] then
          { p with ControlData := buf }
        else if entry.Name = [46, 47, 112, 114, 101, 105, 110, 115, 116] then
          { p with PreInstData := buf }
        else if entry.Name = [46, 47, 112, 114, 101, 114, 109] then
          { p with PreRmData := buf }
        else if entry.Name = [46, 47, 112, 111, 115, 116, 105, 110, 115, 116] then
          { p with PostInstData := buf }
        else if entry.Name = [46, 47, 112, 111, 115, 116, 114, 109] then
          { p with PostRmData := buf }
        else p
      readControlLoop rest last p1

/-- The method `Package.readControl`: the error, the package and the `ar` reader
afterwards. -/
def readControl (c : Collaborators) (p : Package) (ar : Reader) :
    Option Error × Package × Reader :=
  let tgz := c.tarGz ar
  let ar1 := readMany ar tgz.reads
  match tgz.opened with
  | .error err => if err ≠ EOF then (some err, p, ar1) else (some Error.ErrControl, p, ar1)
  | .ok r =>
    let (e, p1) := readControlLoop r.entries r.last p
    (e, p1, ar1)

/-- The loop of `Package.readData` over the entries of the tar reader. -/
def readDataLoop : List TarEntry → Error → Package → Option Error × Package
  | [], last, p => if last ≠ EOF then (some last, p) else (none, p)
  | entry :: rest, last, p =>
    readDataLoop rest last
      (if !entry.IsDir then { p with Files := p.Files ++ [entry.Name] } else p)

/-- The method `Package.readData`. -/
def readData (p : Package) (r : TarReader) : Option Error × Package :=
  readDataLoop r.entries r.last p

/-- The method `Package.generateChecksums`. -/
def generateChecksums (c : Collaborators) (p : Package) : Option Error × Package :=
  match c.readFile p.Path with
  | .error err => (some err, p)
  | .ok buf =>
    let f1 := mapSet p.Fields [77, 68, 53, 115, 117, 109] (c.md5 buf)
    let f2 := mapSet f1 [83, 72, 65, 49] (c.sha1 buf)
    let f3 := mapSet f2 [83, 72, 65, 50, 53, 54] (c.sha256 buf)
    (none, { p with Fields := f3 })

/-- The order of Go strings: byte-wise lexicographic, `a <= b`. -/
def stringLe : List Nat → List Nat → Bool
  | [], _ => true
  | _ :: _, [] => false
  | a :: as, b :: bs => a < b || (a == b && stringLe as bs)

/-- The function `sort.Strings`. -/
def sortStrings (l : List (List Nat)) : List (List Nat) :=
  l.insertionSort (fun a b => stringLe a b = true)

/-- The loop `for { hdr, err := ar.Next() ... }` of `NewPackage`, for at most `fuel`
members: `none` when the loop has not ended after `fuel` calls of `Next`, otherwise the
error with which `NewPackage` returns from inside the loop, or the package when the loop
is left by `break`.

In the case "data.tar.gz" the statement `r, err := NewTarGzReader(ar)` declares a new
`err` in the scope of the case clause; `err = pkg.readData(r)` assigns that inner
variable, and the `err` tested after the `switch` is the one of `hdr, err := ar.Next()`,
which is nil there. -/
def membersLoop (c : Collaborators) : Nat → Reader → Package → Option (Except Error Package)
  | 0, _, _ => none
  | fuel + 1, ar, pkg =>
    match Next ar with
    | (_, some e, _) => if Error.ar e ≠ EOF then some (.error (Error.ar e)) else some (.ok pkg)
    | (none, none, _) => none
    | (some hdr, none, ar1) =>
      if hdr.Name = nameControlTarGz then
        match readControl c pkg ar1 with
        | (some err, _, _) => some (.error err)
        | (none, pkg1, ar2) => membersLoop c fuel ar2 pkg1
      else if hdr.Name = nameDataTar then some (.error Error.ErrFormat)
      else if hdr.Name = nameDataTarBz2 then some (.error Error.ErrFormat)
      else if hdr.Name = nameDataTarGz then
        let tgz := c.tarGz ar1
        let ar2 := readMany ar1 tgz.reads
        match tgz.opened with
        | .error errInner =>
          if errInner ≠ EOF then some (.error errInner) else some (.error Error.ErrData)
        | .ok r =>
          let (_errInner, pkg1) := readData pkg r
          let err : Option Error := none
          match err with
          | some e => some (.error e)
          | none => membersLoop c fuel ar2 pkg1
      else if hdr.Name = nameDataTarLzma then some (.error Error.ErrFormat)
      else if hdr.Name = nameDataTarXz then some (.error Error.ErrFormat)
      else membersLoop c fuel ar1 pkg

/-- The function `NewPackage`: `none` when the member loop does not end within the given
number of calls of `Next`, otherwise the error or the package it returns. -/
def NewPackage (c : Collaborators) (fuel : Nat) (path : List Nat) :
    Option (Except Error Package) :=
  match c.openFile path with
  | .error err => some (.error err)
  | .ok (name, bytes) =>
    let pkg : Package :=
      { Path := path, Name := name, Size := (bytes.length : Int), Files := [],
        Fields := emptyFields, ControlData := [], PreInstData := [], PreRmData := [],
        PostInstData := [], PostRmData := [] }
    match membersLoop c fuel (NewReader bytes) pkg with
    | none => none
    | some (.error err) => some (.error err)
    | some (.ok pkg1) =>
      match parseFields pkg1 with
      | (some err, _) => some (.error err)
      | (none, pkg2) =>
        match generateChecksums c pkg2 with
        | (some err, _) => some (.error err)
        | (none, pkg3) => some (.ok { pkg3 with Files := sortStrings pkg3.Files })

/-! ## Sample packages -/

/-- A package as `NewPackage` has it before `parseFields`, with the given control data
and an empty map. -/
def packageOf (control : List Nat) : Package :=
  { Path := [], Name := [], Size := 0, Files := [], Fields := emptyFields,
    ControlData := control, PreInstData := [], PreRmData := [], PostInstData := [],
    PostRmData := [] }

/-- The bytes of "Package". -/
def keyPackage : List Nat := [80, 97, 99, 107, 97, 103, 101]

/-- The bytes of "empty". -/
def valueEmpty : List Nat := [101, 109, 112, 116, 121]

/-- The bytes of "Version". -/
def keyVersion : List Nat := [86, 101, 114, 115, 105, 111, 110]

/-- The bytes of "1.0.0". -/
def valueVersion : List Nat := [49, 46, 48, 46, 48]

/-- The control text "Package: empty\nVersion: 1.0.0\n". -/
def controlSample : List Nat :=
  keyPackage ++ fieldSep ++ valueEmpty ++ [10] ++ keyVersion ++ fieldSep ++ valueVersion ++ [10]

/-- The control text "Key: ": a key, the separator and an empty value. -/
def controlEmptyValue : List Nat := [75, 101, 121, 58, 32]

/-- The control text "Key:". -/
def controlKeyColon : List Nat := [75, 101, 121, 58]

/-- The control text "Key:value". -/
def controlNoSpace : List Nat := [75, 101, 121, 58, 118, 97, 108, 117, 101]

/-- The control text " c1\nK: v": a continuation line before every key line. -/
def controlContinuationFirst : List Nat := [32, 99, 49, 10, 75, 58, 32, 118]

/-- The control text "K: v\n c1\n\tc2". -/
def controlContinued : List Nat := [75, 58, 32, 118, 10, 32, 99, 49, 10, 9, 99, 50]

/-- The error a result of `NewPackage` carries, `none` for a nil error or no result. -/
def resultError : Option (Except Error Package) → Option Error
  | some (.error e) => some e
  | _ => none

/-- The files of the package a result of `NewPackage` carries, `none` when it carries
no package. -/
def resultFiles : Option (Except Error Package) → Option (List (List Nat))
  | some (.ok p) => some p.Files
  | _ => none

/-- A tar reader whose `Next` returns one entry "./a" and then fails with an error of
the tar collaborator (not `io.EOF`), as for a tar stream that is cut short. -/
def brokenTar : TarReader :=
  { entries := [{ Name := [46, 47, 97], IsDir := false, data := .ok [] }],
    last := Error.external 1 }

/-- A member named as given whose content is three bytes of a gzip stream. -/
def memberNamed (name : List Nat) : Member :=
  { name := name, mtime := [48], uid := [48], gid := [48], mode := [54, 52, 52],
    size := [51], content := [31, 139, 8] }

/-- Collaborators for a file that is an archive of the one member `memberNamed name`:
the gzip stream opens and the tar reader is `brokenTar`. -/
def brokenCollaborators (name : List Nat) : Collaborators :=
  { openFile := fun _ => .ok ([120, 46, 100, 101, 98], encodeArchive [memberNamed name]),
    tarGz := fun _ => { opened := .ok brokenTar, reads := [512] },
    readFile := fun _ => .ok (encodeArchive [memberNamed name]),
    md5 := fun _ => [],
    sha1 := fun _ => [],
    sha256 := fun _ => [] }

end Deb

namespace Ar

/-! ## Trimming and parsing the fields of a well-formed header -/

theorem isSpace_space : isSpace 32 = true := by decide

theorem trimLeftGo_spaces (k : Nat) : trimLeftGo (List.replicate k 32) 0 = [] := by
  induction k with
  | zero => rfl
  | succ k ih => simpa [List.replicate_succ, trimLeftGo, isSpace_space] using ih

theorem trimLeftGo_token (c : Nat) (rest : List Nat) (hc : c < 128)
    (hs : isSpace c = false) : trimLeftGo (c :: rest) 0 = c :: rest := by
  have h : c < 0x80 := hc
  simp [trimLeftGo, h, hs]

theorem lastIndexGo_spaces (k : Nat) (t : List Nat) :
    lastIndexGo (List.replicate k 32 ++ t) 0 = lastIndexGo t 0 := by
  induction k with
  | zero => rfl
  | succ k ih => simpa [List.replicate_succ, lastIndexGo, isSpace_space] using ih

theorem lastIndexGo_token (c : Nat) (rest : List Nat) (hc : c < 128)
    (hs : isSpace c = false) : lastIndexGo (c :: rest) 0 = some rest.length := by
  have h : c < 0x80 := hc
  simp [lastIndexGo, h, hs]

theorem trimRight_token_spaces (n : List Nat) (k : Nat)
    (hc : n.reverse.headD 0 < 128) (hs : isSpace (n.reverse.headD 0) = false) :
    trimRight (n ++ List.replicate k 32) = n := by
  unfold trimRight
  rw [List.reverse_append, List.reverse_replicate, lastIndexGo_spaces]
  rcases List.eq_nil_or_concat n with hn | ⟨front, c, hn⟩
  · subst hn
    simp [lastIndexGo]
  · subst hn
    simp only [List.concat_eq_append, List.reverse_append, List.reverse_cons, List.reverse_nil,
      List.nil_append, List.singleton_append, List.headD_cons] at hc hs
    have h80 : c < 0x80 := hc
    simp only [List.concat_eq_append, List.reverse_append, List.reverse_cons, List.reverse_nil,
      List.nil_append, List.singleton_append]
    rw [lastIndexGo_token c _ hc hs]
    simp only [List.length_reverse]
    have hget : (front ++ [c] ++ List.replicate k 32).getD front.length 0 = c := by
      rw [List.getD_eq_getElem?_getD, List.append_assoc, List.getElem?_append_right (le_refl _)]
      simp
    rw [hget]
    have : ¬ (c ≥ 0x80) := by omega
    simp only [this, if_false]
    rw [List.take_append_eq_append_take]
    simp

theorem trimSpace_padRight (w : Nat) (n : List Nat)
    (h0 : n.headD 0 < 128) (h0s : isSpace (n.headD 0) = false)
    (hl : n.reverse.headD 0 < 128) (hls : isSpace (n.reverse.headD 0) = false) :
    trimSpace (padRight w n) = n := by
  unfold trimSpace padRight
  cases n with
  | nil =>
    simp only [List.nil_append, trimLeftGo_spaces]
    rfl
  | cons c rest =>
    simp only [List.headD_cons] at h0 h0s
    rw [List.cons_append, trimLeftGo_token c _ h0 h0s, ← List.cons_append]
    exact trimRight_token_spaces _ _ hl hls


theorem digitVal_digit (c : Nat) (h1 : 48 ≤ c) (h2 : c ≤ 57) : digitVal c = some (c - 48) := by
  simp [digitVal, h1, h2]

theorem parseUintLoop_numeral (base : Nat) (hb1 : 1 ≤ base) (hb : base ≤ 10) :
    ∀ (ds : List Nat) (n : Nat), (∀ c ∈ ds, 48 ≤ c ∧ c < 48 + base) →
      (n + 1) * base ^ ds.length ≤ 2 ^ 63 →
      parseUintLoop base ds n = .ok (ds.foldl (fun n c => n * base + (c - 48)) n) ∧
        ds.foldl (fun n c => n * base + (c - 48)) n < 2 ^ 63 := by
  intro ds
  induction ds with
  | nil =>
    intro n _ hn
    simp only [List.length_nil, pow_zero, mul_one] at hn
    exact ⟨rfl, by simp only [List.foldl_nil]; omega⟩
  | cons c rest ih =>
    intro n hds hn
    have hc := hds c (List.mem_cons_self _ _)
    have hrest : ∀ c ∈ rest, 48 ≤ c ∧ c < 48 + base := fun x hx =>
      hds x (List.mem_cons_of_mem _ hx)
    have hpos : 1 ≤ base ^ rest.length := Nat.one_le_pow _ _ hb1
    have hstep : (n * base + (c - 48) + 1) * base ^ rest.length ≤ 2 ^ 63 := by
      have h1 : n * base + (c - 48) + 1 ≤ (n + 1) * base := by
        have : c - 48 + 1 ≤ base := by omega
        nlinarith
      calc (n * base + (c - 48) + 1) * base ^ rest.length
          ≤ ((n + 1) * base) * base ^ rest.length := Nat.mul_le_mul_right _ h1
        _ = (n + 1) * base ^ (rest.length + 1) := by ring
        _ ≤ 2 ^ 63 := by simpa using hn
    have hsmall : n * base + (c - 48) + 1 ≤ 2 ^ 63 := by
      calc n * base + (c - 48) + 1 ≤ (n * base + (c - 48) + 1) * base ^ rest.length :=
            Nat.le_mul_of_pos_right _ hpos
        _ ≤ 2 ^ 63 := hstep
    have hd : digitVal c = some (c - 48) := digitVal_digit c hc.1 (by omega)
    have hcut : ¬ (n ≥ maxUint64 / base + 1) := by
      have : n ≤ maxUint64 / base := by
        rw [Nat.le_div_iff_mul_le (by omega)]
        have : (2:Nat) ^ 63 ≤ maxUint64 := by decide
        omega
      omega
    have hmax : ¬ (n * base + (c - 48) > maxUint64) := by
      have : (2:Nat) ^ 63 ≤ maxUint64 := by decide
      omega
    have hdb : ¬ (c - 48 ≥ base) := by omega
    simp only [parseUintLoop, hd, hdb, hcut, hmax, if_false, List.foldl_cons]
    exact ih _ hrest hstep

theorem isNumeral_iff (base w : Nat) (ds : List Nat) :
    isNumeral base w ds = true ↔
      ds ≠ [] ∧ ds.length ≤ w ∧ ∀ c ∈ ds, 48 ≤ c ∧ c < 48 + base := by
  simp [isNumeral, and_assoc]

theorem parseInt_numeral (base w : Nat) (ds : List Nat) (hb1 : 1 ≤ base) (hb : base ≤ 10)
    (hw : base ^ w ≤ 2 ^ 63) (h : isNumeral base w ds = true) :
    parseInt ds base = .ok (numVal base ds : Int) := by
  obtain ⟨hne, hlen, hds⟩ := (isNumeral_iff base w ds).1 h
  have hbound : (0 + 1) * base ^ ds.length ≤ 2 ^ 63 := by
    rw [Nat.zero_add, Nat.one_mul]
    exact le_trans (Nat.pow_le_pow_right hb1 hlen) hw
  obtain ⟨hloop, hlt⟩ := parseUintLoop_numeral base hb1 hb ds 0 hds hbound
  cases ds with
  | nil => exact absurd rfl hne
  | cons c rest =>
    have hc := hds c (List.mem_cons_self _ _)
    have h45 : (c == 45) = false := by simp; omega
    have h43 : (c == 43) = false := by simp; omega
    have hge : ¬ (numVal base (c :: rest) ≥ 2 ^ 63) := by
      unfold numVal; omega
    unfold numVal at hge
    simp only [parseInt, h45, h43, Bool.or_self, Bool.false_eq_true, if_false, parseUint,
      hloop, List.cons_ne_nil, numVal, Bool.not_false, Bool.true_and, Bool.false_and,
      decide_eq_true_eq, hge]

theorem numeral_token (base w : Nat) (ds : List Nat) (hb : base ≤ 10)
    (h : isNumeral base w ds = true) :
    ds.headD 0 < 128 ∧ isSpace (ds.headD 0) = false ∧
      ds.reverse.headD 0 < 128 ∧ isSpace (ds.reverse.headD 0) = false := by
  obtain ⟨hne, _, hds⟩ := (isNumeral_iff base w ds).1 h
  have key : ∀ c ∈ ds, c < 128 ∧ isSpace c = false := by
    intro c hc
    have := hds c hc
    refine ⟨by omega, ?_⟩
    have h1 : 48 ≤ c := this.1
    have h2 : c ≤ 57 := by omega
    interval_cases c <;> rfl
  have hhead : ds.headD 0 ∈ ds := by
    cases ds with
    | nil => exact absurd rfl hne
    | cons c rest => simp
  have hlast : ds.reverse.headD 0 ∈ ds := by
    have hne2 : ds.reverse ≠ [] := by simpa using hne
    cases hr : ds.reverse with
    | nil => exact absurd hr hne2
    | cons c rest =>
      have : c ∈ ds.reverse := by rw [hr]; simp
      simpa using this
  exact ⟨(key _ hhead).1, (key _ hhead).2, (key _ hlast).1, (key _ hlast).2⟩

theorem readInt_numeral (ar : Reader) (base w wf : Nat) (ds : List Nat) (hb1 : 1 ≤ base)
    (hb : base ≤ 10) (hw : base ^ w ≤ 2 ^ 63) (h : isNumeral base w ds = true) :
    readInt ar (padRight wf ds) base = ((numVal base ds : Int), ar) := by
  obtain ⟨t1, t2, t3, t4⟩ := numeral_token base w ds hb h
  unfold readInt
  rw [trimSpace_padRight wf ds t1 t2 t3 t4, parseInt_numeral base w ds hb1 hb hw h]

/-! ## `readHeader` on a well-formed header block -/

theorem length_padRight (w : Nat) (s : List Nat) (h : s.length ≤ w) :
    (padRight w s).length = w := by
  simp [padRight]; omega

theorem slice_mid (pre x post : List Nat) (lo hi : Nat) (hlo : pre.length = lo)
    (hhi : lo + x.length = hi) : slice (pre ++ x ++ post) lo hi = x := by
  subst hlo hhi
  simp [slice]

theorem isName_iff (n : List Nat) :
    isName n = true ↔ n.length ≤ 16 ∧ (∀ c ∈ n, c < 128) ∧ isSpace (n.headD 0) = false ∧
      isSpace (n.reverse.headD 0) = false := by
  simp [isName, and_assoc]

theorem name_token (n : List Nat) (h : isName n = true) :
    n.headD 0 < 128 ∧ isSpace (n.headD 0) = false ∧
      n.reverse.headD 0 < 128 ∧ isSpace (n.reverse.headD 0) = false := by
  obtain ⟨_, hall, h1, h2⟩ := (isName_iff n).1 h
  refine ⟨?_, h1, ?_, h2⟩
  · cases n with
    | nil => simp
    | cons c rest => simpa using hall c (List.mem_cons_self _ _)
  · cases hr : n.reverse with
    | nil => simp
    | cons c rest =>
      have : c ∈ n.reverse := by rw [hr]; simp
      simpa using hall c (by simpa using this)

theorem Member.wellFormed_iff (m : Member) :
    m.wellFormed = true ↔ isName m.name = true ∧ isNumeral 10 12 m.mtime = true ∧
      isNumeral 10 6 m.uid = true ∧ isNumeral 10 6 m.gid = true ∧
      isNumeral 8 8 m.mode = true ∧ isNumeral 10 10 m.size = true ∧
      numVal 10 m.size = m.content.length := by
  simp [Member.wellFormed, and_assoc]

theorem length_encodeHeader (m : Member) (h : m.wellFormed = true) :
    (encodeHeader m).length = 60 := by
  obtain ⟨hn, ht, hu, hg, hmo, hs, _⟩ := (Member.wellFormed_iff m).1 h
  have h1 := length_padRight 16 m.name ((isName_iff _).1 hn).1
  have h2 := length_padRight 12 m.mtime ((isNumeral_iff _ _ _).1 ht).2.1
  have h3 := length_padRight 6 m.uid ((isNumeral_iff _ _ _).1 hu).2.1
  have h4 := length_padRight 6 m.gid ((isNumeral_iff _ _ _).1 hg).2.1
  have h5 := length_padRight 8 m.mode ((isNumeral_iff _ _ _).1 hmo).2.1
  have h6 := length_padRight 10 m.size ((isNumeral_iff _ _ _).1 hs).2.1
  simp [encodeHeader, h1, h2, h3, h4, h5, h6, fileMagic]

theorem readHeader_wellFormed (m : Member) (h : m.wellFormed = true) (ar : Reader)
    (tail : List Nat) (herr : ar.err = none) (hr : ar.r = encodeHeader m ++ tail) :
    readHeader ar = (some m.header,
      { ar with r := tail, dataR := true, dataN := (m.content.length : Int),
                padded := decide (m.content.length % 2 = 1) }) := by
  have hlen := length_encodeHeader m h
  obtain ⟨hn, ht, hu, hg, hmo, hs, hsz⟩ := (Member.wellFormed_iff m).1 h
  have l1 := length_padRight 16 m.name ((isName_iff _).1 hn).1
  have l2 := length_padRight 12 m.mtime ((isNumeral_iff _ _ _).1 ht).2.1
  have l3 := length_padRight 6 m.uid ((isNumeral_iff _ _ _).1 hu).2.1
  have l4 := length_padRight 6 m.gid ((isNumeral_iff _ _ _).1 hg).2.1
  have l5 := length_padRight 8 m.mode ((isNumeral_iff _ _ _).1 hmo).2.1
  have l6 := length_padRight 10 m.size ((isNumeral_iff _ _ _).1 hs).2.1
  have hfull : readFull ar.r blockSize = (encodeHeader m, none, tail) := by
    have hle : blockSize ≤ (encodeHeader m ++ tail).length := by
      simp [blockSize, hlen]
    simp only [readFull, hr, hle, if_true]
    rw [List.take_left' (by simpa [blockSize] using hlen),
      List.drop_left' (by simpa [blockSize] using hlen)]
  have s0 : slice (encodeHeader m) 0 16 = padRight 16 m.name := by
    have := slice_mid [] (padRight 16 m.name) (padRight 12 m.mtime ++ padRight 6 m.uid ++
      padRight 6 m.gid ++ padRight 8 m.mode ++ padRight 10 m.size ++ fileMagic) 0 16 rfl
      (by rw [l1])
    simpa [encodeHeader, List.append_assoc] using this
  have s1 : slice (encodeHeader m) 16 28 = padRight 12 m.mtime := by
    have := slice_mid (padRight 16 m.name) (padRight 12 m.mtime) (padRight 6 m.uid ++
      padRight 6 m.gid ++ padRight 8 m.mode ++ padRight 10 m.size ++ fileMagic) 16 28 l1
      (by rw [l2])
    simpa [encodeHeader, List.append_assoc] using this
  have s2 : slice (encodeHeader m) 28 34 = padRight 6 m.uid := by
    have := slice_mid (padRight 16 m.name ++ padRight 12 m.mtime) (padRight 6 m.uid)
      (padRight 6 m.gid ++ padRight 8 m.mode ++ padRight 10 m.size ++ fileMagic) 28 34
      (by simp [l1, l2]) (by rw [l3])
    simpa [encodeHeader, List.append_assoc] using this
  have s3 : slice (encodeHeader m) 34 40 = padRight 6 m.gid := by
    have := slice_mid (padRight 16 m.name ++ padRight 12 m.mtime ++ padRight 6 m.uid)
      (padRight 6 m.gid) (padRight 8 m.mode ++ padRight 10 m.size ++ fileMagic) 34 40
      (by simp [l1, l2, l3]) (by rw [l4])
    simpa [encodeHeader, List.append_assoc] using this
  have s4 : slice (encodeHeader m) 40 48 = padRight 8 m.mode := by
    have := slice_mid (padRight 16 m.name ++ padRight 12 m.mtime ++ padRight 6 m.uid ++
      padRight 6 m.gid) (padRight 8 m.mode) (padRight 10 m.size ++ fileMagic) 40 48
      (by simp [l1, l2, l3, l4]) (by rw [l5])
    simpa [encodeHeader, List.append_assoc] using this
  have s5 : slice (encodeHeader m) 48 58 = padRight 10 m.size := by
    have := slice_mid (padRight 16 m.name ++ padRight 12 m.mtime ++ padRight 6 m.uid ++
      padRight 6 m.gid ++ padRight 8 m.mode) (padRight 10 m.size) fileMagic 48 58
      (by simp [l1, l2, l3, l4, l5]) (by rw [l6])
    simpa [encodeHeader, List.append_assoc] using this
  have s6 : slice (encodeHeader m) (blockSize - 2) blockSize = fileMagic := by
    have := slice_mid (padRight 16 m.name ++ padRight 12 m.mtime ++ padRight 6 m.uid ++
      padRight 6 m.gid ++ padRight 8 m.mode ++ padRight 10 m.size) fileMagic [] 58 60
      (by simp [l1, l2, l3, l4, l5, l6]) (by simp [fileMagic])
    simpa [encodeHeader, List.append_assoc, blockSize] using this
  obtain ⟨t1, t2, t3, t4⟩ := name_token m.name hn
  have hname : trimSpace (padRight 16 m.name) = m.name := trimSpace_padRight 16 _ t1 t2 t3 t4
  have hpad : decide (Int.tmod ((numVal 10 m.size : Nat) : Int) 2 = 1)
      = decide (m.content.length % 2 = 1) := by
    rw [hsz]
    have : Int.tmod ((m.content.length : Nat) : Int) 2 = ((m.content.length % 2 : Nat) : Int) := by
      rw [Int.tmod_eq_emod (by omega) (by omega)]; rfl
    rw [this]
    simp only [decide_eq_decide]
    omega
  unfold readHeader
  simp only [hfull, s6, ne_eq, not_true_eq_false, if_false, s0, s1, s2, s3, s4, s5, hname,
    modTime]
  simp only [readInt_numeral _ 10 12 12 m.mtime (by omega) (by omega) (by norm_num) ht,
    readInt_numeral _ 10 6 6 m.uid (by omega) (by omega) (by norm_num) hu,
    readInt_numeral _ 10 6 6 m.gid (by omega) (by omega) (by norm_num) hg,
    readInt_numeral _ 8 8 8 m.mode (by omega) (by omega) (by norm_num) hmo,
    readInt_numeral _ 10 10 10 m.size (by omega) (by omega) (by norm_num) hs, herr,
    not_true_eq_false, if_false, hpad, Member.header]
  rw [← hsz]
  by_cases hz : numVal 10 m.mtime = 0
  · simp [hz]
  · have hz2 : ¬ ((numVal 10 m.mtime : Int) = 0) := by exact_mod_cast hz
    simp [hz, hz2]

/-! ## `Next` and `Read` on a well-formed archive -/

theorem copyDiscard_unread (unread tail : List Nat) :
    copyDiscard (unread ++ tail) (unread.length : Int) = (none, tail, 0) := by
  simp [copyDiscard]

theorem skipUnread_unread (unread tail : List Nat) (e : Option Error)
    (valid padded dataR : Bool) :
    skipUnread { r := unread ++ ((if padded then [10] else []) ++ tail), err := e,
                 valid := valid, padded := padded, dataR := dataR,
                 dataN := (unread.length : Int) } =
      { r := tail, err := none, valid := valid, padded := padded, dataR := dataR,
        dataN := 0 } := by
  unfold skipUnread
  simp only [copyDiscard_unread]
  cases padded <;> simp [streamRead]

theorem next_wellFormed (m : Member) (h : m.wellFormed = true) (unread tail : List Nat)
    (padded dataR : Bool) :
    Next { r := unread ++ ((if padded then [10] else []) ++ (encodeHeader m ++ tail)),
           err := none, valid := true, padded := padded, dataR := dataR,
           dataN := (unread.length : Int) } =
      (some m.header, none,
        { r := tail, err := none, valid := true,
          padded := decide (m.content.length % 2 = 1), dataR := true,
          dataN := (m.content.length : Int) }) := by
  have hrh := readHeader_wellFormed m h
    { r := encodeHeader m ++ tail, err := none, valid := true, padded := padded,
      dataR := dataR, dataN := 0 } tail rfl rfl
  simp only [Next, if_true, skipUnread_unread, Bool.not_true, Bool.false_eq_true, if_false,
    hrh]

theorem next_end (unread : List Nat) (padded dataR : Bool) :
    Next { r := unread ++ ((if padded then [10] else []) ++ []),
           err := none, valid := true, padded := padded, dataR := dataR,
           dataN := (unread.length : Int) } =
      (none, some Error.EOF,
        { r := [], err := some Error.EOF, valid := true, padded := padded, dataR := dataR,
          dataN := 0 }) := by
  simp only [Next, if_true, skipUnread_unread, Bool.not_true, Bool.false_eq_true, if_false]
  simp [readHeader, readFull, blockSize]

theorem next_validate (s : List Nat) :
    Next (NewReader (magic ++ s)) =
      Next { r := [] ++ ((if false then [10] else []) ++ s), err := none, valid := true,
             padded := false, dataR := false, dataN := (([] : List Nat).length : Int) } := by
  have hval : validate ⟨magic ++ s, none, false, false, false, 0⟩ =
      (none, ⟨s, none, true, false, false, 0⟩) := by
    simp [validate, copyNDiscard, magic]
  simp [Next, NewReader, skipUnread, copyDiscard, hval]

theorem readAll_content (len : Nat) (hlen : 0 < len) :
    ∀ (fuel : Nat) (content tail : List Nat) (valid padded : Bool),
      content.length < fuel →
      readAll len fuel { r := content ++ tail, err := none, valid := valid,
                         padded := padded, dataR := true,
                         dataN := (content.length : Int) } =
        (content, some Error.EOF,
          { r := tail, err := none, valid := valid, padded := padded, dataR := true,
            dataN := 0 }) := by
  intro fuel
  induction fuel with
  | zero => intro content tail _ _ hf; omega
  | succ fuel ih =>
    intro content tail valid padded hf
    cases content with
    | nil => simp [readAll, Read, limitedRead]
    | cons c rest =>
      set content := c :: rest with hcontent
      have hpos : 0 < content.length := by simp [hcontent]
      have hnpos : ¬ ((content.length : Int) ≤ 0) := by omega
      -- the number of bytes this call delivers
      obtain ⟨k, hk1, hk2, hk⟩ : ∃ k : Nat, 0 < k ∧ k ≤ content.length ∧
          (if (len : Int) > (content.length : Int) then (content.length : Int).toNat
            else len) = k := by
        by_cases hc : (len : Int) > (content.length : Int)
        · exact ⟨content.length, hpos, le_refl _, by simp [hc]⟩
        · exact ⟨len, hlen, by omega, by simp [hc]⟩
      have hne : content ++ tail ≠ [] := by simp [hcontent]
      have hread : Read ⟨content ++ tail, none, valid, padded, true, (content.length : Int)⟩ len =
          (content.take k, none, ⟨content.drop k ++ tail, none, valid, padded, true,
            ((content.drop k).length : Int)⟩) := by
        simp only [Read, Bool.not_true, Bool.false_eq_true, if_false, limitedRead,
          hnpos, hk, streamRead, hne]
        have ht : List.take k (content ++ tail) = List.take k content := by
          rw [List.take_append_of_le_length hk2]
        have hdr : List.drop k (content ++ tail) = List.drop k content ++ tail := by
          rw [List.drop_append_of_le_length hk2]
        rw [ht, hdr]
        have hl : ((List.take k content).length : Int) = k := by
          simp [List.length_take, hk2]
        simp only [hl, List.length_drop]
        congr 3
        omega
      have hrec := ih (content.drop k) tail valid padded
        (by simp only [List.length_drop]; omega)
      simp only [readAll, hread, hrec, List.take_append_drop]

theorem readArchive_congr (len fuel k : Nat) (ar ar1 : Reader) (h : Next ar = Next ar1) :
    readArchive len fuel (k + 1) ar = readArchive len fuel (k + 1) ar1 := by
  simp only [readArchive, h]

theorem readArchive_members (len fuel : Nat) (hlen : 0 < len) :
    ∀ (ms : List Member) (k : Nat) (padded dataR : Bool),
      (∀ m ∈ ms, m.wellFormed = true) → (∀ m ∈ ms, m.content.length < fuel) →
      ms.length < k →
      ∃ p d, readArchive len fuel k
          ⟨[] ++ ((if padded then [10] else []) ++ encodeMembers ms), none, true, padded,
            dataR, (([] : List Nat).length : Int)⟩ =
        (ms.map (fun m => (m.header, m.content)), some Error.EOF,
          ⟨[], some Error.EOF, true, p, d, 0⟩) := by
  intro ms
  induction ms with
  | nil =>
    intro k padded dataR _ _ hk
    obtain ⟨k, rfl⟩ : ∃ j, k = j + 1 := ⟨k - 1, by simp at hk; omega⟩
    refine ⟨padded, dataR, ?_⟩
    simp only [readArchive, encodeMembers, next_end, List.map_nil]
  | cons m ms ih =>
    intro k padded dataR hwf hfuel hk
    obtain ⟨k, rfl⟩ : ∃ j, k = j + 1 := ⟨k - 1, by simp at hk; omega⟩
    have hm := hwf m (List.mem_cons_self _ _)
    have hf := hfuel m (List.mem_cons_self _ _)
    have henc : encodeMembers (m :: ms) = encodeHeader m ++
        (m.content ++ ([] ++ ((if decide (m.content.length % 2 = 1) then [10] else []) ++
          encodeMembers ms))) := by
      simp [encodeMembers, padByte, List.append_assoc]
    obtain ⟨p, d, hrec⟩ := ih k (decide (m.content.length % 2 = 1)) true
      (fun x hx => hwf x (List.mem_cons_of_mem _ hx))
      (fun x hx => hfuel x (List.mem_cons_of_mem _ hx))
      (by simp at hk; omega)
    refine ⟨p, d, ?_⟩
    rw [henc]
    simp only [readArchive, next_wellFormed m hm, readAll_content len hlen fuel _ _ _ _ hf]
    simp only [List.length_nil, Nat.cast_zero] at hrec
    rw [hrec]
    simp


theorem readArchive_members_exact (len fuel : Nat) (hlen : 0 < len) :
    ∀ (ms : List Member) (padded dataR : Bool),
      (∀ m ∈ ms, m.wellFormed = true) → (∀ m ∈ ms, m.content.length < fuel) →
      ∃ p d, readArchive len fuel ms.length
          ⟨[] ++ ((if padded then [10] else []) ++ encodeMembers ms), none, true, padded,
            dataR, (([] : List Nat).length : Int)⟩ =
        (ms.map (fun m => (m.header, m.content)), none,
          ⟨[] ++ ((if p then [10] else []) ++ []), none, true, p, d,
            (([] : List Nat).length : Int)⟩) := by
  intro ms
  induction ms with
  | nil =>
    intro padded dataR _ _
    exact ⟨padded, dataR, by simp [readArchive, encodeMembers]⟩
  | cons m ms ih =>
    intro padded dataR hwf hfuel
    have hm := hwf m (List.mem_cons_self _ _)
    have hf := hfuel m (List.mem_cons_self _ _)
    have henc : encodeMembers (m :: ms) = encodeHeader m ++
        (m.content ++ ([] ++ ((if decide (m.content.length % 2 = 1) then [10] else []) ++
          encodeMembers ms))) := by
      simp [encodeMembers, padByte, List.append_assoc]
    obtain ⟨p, d, hrec⟩ := ih (decide (m.content.length % 2 = 1)) true
      (fun x hx => hwf x (List.mem_cons_of_mem _ hx))
      (fun x hx => hfuel x (List.mem_cons_of_mem _ hx))
    refine ⟨p, d, ?_⟩
    rw [henc]
    simp only [List.length_cons, readArchive, next_wellFormed m hm,
      readAll_content len hlen fuel _ _ _ _ hf]
    simp only [List.length_nil, Nat.cast_zero] at hrec
    rw [hrec]
    simp

/-- C1: for every well-formed archive, a caller that alternates `Next` with reading the
member to its end (buffers of any positive length) obtains, in file order, for each
member the header its fields denote (`Name`, `ModTime` the zero time for mtime 0 and
`Unix(mtime, 0)` otherwise, `Uid`, `Gid`, `Mode`, `Size`) together with exactly the
content bytes of that member, and the `Next` after the last member returns `io.EOF` with
a nil header; this includes the archive without members. -/
theorem C1_wellformed_archive_read (ms : List Member) (len fuel k : Nat)
    (hwf : ∀ m ∈ ms, m.wellFormed = true) (hlen : 0 < len)
    (hfuel : ∀ m ∈ ms, m.content.length < fuel) (hk : ms.length < k) :
    (∃ ar, readArchive len fuel k (NewReader (encodeArchive ms)) =
        (ms.map (fun m => (m.header, m.content)), some Error.EOF, ar)) ∧
    (∃ ar1 ar2, readArchive len fuel ms.length (NewReader (encodeArchive ms)) =
        (ms.map (fun m => (m.header, m.content)), none, ar1) ∧
      Next ar1 = (none, some Error.EOF, ar2)) := by
  constructor
  · obtain ⟨k, rfl⟩ : ∃ j, k = j + 1 := ⟨k - 1, by omega⟩
    obtain ⟨p, d, h⟩ := readArchive_members len fuel hlen ms (k + 1) false false hwf hfuel hk
    refine ⟨⟨[], some Error.EOF, true, p, d, 0⟩, ?_⟩
    unfold encodeArchive
    rw [readArchive_congr len fuel k _ _ (next_validate (encodeMembers ms))]
    exact h
  · cases ms with
    | nil =>
      refine ⟨NewReader (encodeArchive []), ⟨[], some Error.EOF, true, false, false, 0⟩,
        rfl, ?_⟩
      unfold encodeArchive
      rw [next_validate]
      exact next_end [] false false
    | cons m ms =>
      obtain ⟨p, d, h⟩ := readArchive_members_exact len fuel hlen (m :: ms) false false
        hwf hfuel
      refine ⟨_, ⟨[], some Error.EOF, true, p, d, 0⟩, ?_, next_end [] p d⟩
      unfold encodeArchive
      rw [List.length_cons,
        readArchive_congr len fuel ms.length _ _ (next_validate (encodeMembers (m :: ms)))]
      exact h

set_option maxRecDepth 100000 in
/-- C1 at the sample archive of three members, read with buffers of two bytes. -/
theorem C1_wellformed_archive_read_witness :
    (∀ m ∈ sampleMembers, m.wellFormed = true) ∧ 0 < 2 ∧
    (∀ m ∈ sampleMembers, m.content.length < 5) ∧ sampleMembers.length < 4 ∧
    ((∃ ar, readArchive 2 5 4 (NewReader (encodeArchive sampleMembers)) =
        (sampleMembers.map (fun m => (m.header, m.content)), some Error.EOF, ar)) ∧
    (∃ ar1 ar2, readArchive 2 5 sampleMembers.length (NewReader (encodeArchive sampleMembers)) =
        (sampleMembers.map (fun m => (m.header, m.content)), none, ar1) ∧
      Next ar1 = (none, some Error.EOF, ar2))) :=
  ⟨by decide, by decide, by decide, by decide,
    C1_wellformed_archive_read sampleMembers 2 5 4 (by decide) (by decide) (by decide)
      (by decide)⟩

/-! ## Partial reads -/

theorem read_unread (unread tail : List Nat) (valid padded : Bool) (len : Nat) :
    Read ⟨unread ++ tail, none, valid, padded, true, (unread.length : Int)⟩ len =
      (unread.take len, if unread = [] then some Error.EOF else none,
        ⟨unread.drop len ++ tail, none, valid, padded, true,
          ((unread.drop len).length : Int)⟩) := by
  cases unread with
  | nil => simp [Read, limitedRead]
  | cons c rest =>
    set unread := c :: rest with hu
    have hpos : 0 < unread.length := by simp [hu]
    have hnpos : ¬ ((unread.length : Int) ≤ 0) := by omega
    have hne : unread ++ tail ≠ [] := by simp [hu]
    have hne2 : unread ≠ [] := by simp [hu]
    simp only [Read, Bool.not_true, Bool.false_eq_true, if_false, limitedRead, hnpos,
      streamRead, hne, hne2]
    by_cases hc : (len : Int) > (unread.length : Int)
    · have hlen : unread.length ≤ len := by omega
      simp only [hc, if_true, Int.toNat_ofNat, List.take_left, List.drop_left,
        List.take_of_length_le hlen, List.drop_of_length_le hlen, List.nil_append,
        List.length_nil, Nat.cast_zero, sub_self]
    · have hlen : len ≤ unread.length := by omega
      simp only [hc, if_false, List.take_append_of_le_length hlen,
        List.drop_append_of_le_length hlen, List.length_take, List.length_drop,
        Nat.min_eq_left hlen]
      congr 3
      omega

theorem readMany_unread (tail : List Nat) (valid padded : Bool) :
    ∀ (lens : List Nat) (unread : List Nat), ∃ j,
      readMany ⟨unread ++ tail, none, valid, padded, true, (unread.length : Int)⟩ lens =
        ⟨unread.drop j ++ tail, none, valid, padded, true,
          ((unread.drop j).length : Int)⟩ := by
  intro lens
  induction lens with
  | nil => intro unread; exact ⟨0, by simp [readMany]⟩
  | cons len lens ih =>
    intro unread
    obtain ⟨j, hj⟩ := ih (unread.drop len)
    refine ⟨len + j, ?_⟩
    simp only [readMany, List.foldl_cons, read_unread] at hj ⊢
    rw [hj, List.drop_drop]

theorem encodeMembers_append (xs ys : List Member) :
    encodeMembers (xs ++ ys) = encodeMembers xs ++ encodeMembers ys := by
  induction xs with
  | nil => rfl
  | cons x xs ih => simp [encodeMembers, ih, List.append_assoc]

theorem readArchive_front (len fuel : Nat) (hlen : 0 < len) (t : List Nat) :
    ∀ (ms : List Member) (padded dataR : Bool),
      (∀ m ∈ ms, m.wellFormed = true) → (∀ m ∈ ms, m.content.length < fuel) →
      ∃ p d, readArchive len fuel ms.length
          ⟨[] ++ ((if padded then [10] else []) ++ (encodeMembers ms ++ t)), none, true,
            padded, dataR, (([] : List Nat).length : Int)⟩ =
        (ms.map (fun m => (m.header, m.content)), none,
          ⟨[] ++ ((if p then [10] else []) ++ t), none, true, p, d,
            (([] : List Nat).length : Int)⟩) := by
  intro ms
  induction ms with
  | nil =>
    intro padded dataR _ _
    exact ⟨padded, dataR, by simp [readArchive, encodeMembers]⟩
  | cons m ms ih =>
    intro padded dataR hwf hfuel
    have hm := hwf m (List.mem_cons_self _ _)
    have hf := hfuel m (List.mem_cons_self _ _)
    have henc : encodeMembers (m :: ms) ++ t = encodeHeader m ++
        (m.content ++ ([] ++ ((if decide (m.content.length % 2 = 1) then [10] else []) ++
          (encodeMembers ms ++ t)))) := by
      simp [encodeMembers, padByte, List.append_assoc]
    obtain ⟨p, d, hrec⟩ := ih (decide (m.content.length % 2 = 1)) true
      (fun x hx => hwf x (List.mem_cons_of_mem _ hx))
      (fun x hx => hfuel x (List.mem_cons_of_mem _ hx))
    refine ⟨p, d, ?_⟩
    rw [henc]
    simp only [List.length_cons, readArchive, next_wellFormed m hm,
      readAll_content len hlen fuel _ _ _ _ hf]
    simp only [List.length_nil, Nat.cast_zero] at hrec
    rw [hrec]
    simp

theorem readArchive_front_new (len fuel : Nat) (hlen : 0 < len) (front rest : List Member)
    (hwf : ∀ m ∈ front, m.wellFormed = true) (hfuel : ∀ m ∈ front, m.content.length < fuel) :
    ∃ ar0 p d, readArchive len fuel front.length (NewReader (encodeArchive (front ++ rest))) =
        (front.map (fun m => (m.header, m.content)), none, ar0) ∧
      Next ar0 = Next ⟨[] ++ ((if p then [10] else []) ++ encodeMembers rest), none, true, p,
        d, (([] : List Nat).length : Int)⟩ := by
  cases front with
  | nil =>
    refine ⟨NewReader (encodeArchive ([] ++ rest)), false, false, rfl, ?_⟩
    simp only [List.nil_append, encodeArchive]
    exact next_validate _
  | cons m ms =>
    obtain ⟨p, d, h⟩ := readArchive_front len fuel hlen (encodeMembers rest) (m :: ms) false
      false hwf hfuel
    refine ⟨_, p, d, ?_, rfl⟩
    unfold encodeArchive
    rw [List.length_cons, readArchive_congr len fuel ms.length _ _ (next_validate _),
      encodeMembers_append]
    exact h

/-- C2: in a well-formed archive, let the members before `m` be read completely and
`Next` return the header of `m`.  If the caller then reads only `k` of the content bytes
of `m` (a `Read` with a buffer of `k` bytes delivers exactly the first `k` of them, all of
them when `k` exceeds `Size`), or issues any sequence of `Read` calls whatever, the
following `Next` returns the header of
the successor of `m`, and result and reader state are the same as when `m` is read to
its end before that `Next`: the unread remainder and the pad byte are skipped. -/
theorem C2_partial_read_then_next (front rest : List Member) (m m1 : Member)
    (len fuel k : Nat) (hwf : ∀ x ∈ front ++ m :: m1 :: rest, x.wellFormed = true)
    (hlen : 0 < len) (hfuel : ∀ x ∈ front ++ [m], x.content.length < fuel) :
    ∃ ar0 ar1 ar2 arF,
      readArchive len fuel front.length (NewReader (encodeArchive (front ++ m :: m1 :: rest))) =
        (front.map (fun x => (x.header, x.content)), none, ar0) ∧
      Next ar0 = (some m.header, none, ar1) ∧
      (Read ar1 k).1 = m.content.take k ∧
      Next (Read ar1 k).2.2 = (some m1.header, none, ar2) ∧
      (∀ lens : List Nat, Next (readMany ar1 lens) = (some m1.header, none, ar2)) ∧
      readAll len fuel ar1 = (m.content, some Error.EOF, arF) ∧
      Next arF = (some m1.header, none, ar2) := by
  have hwfF : ∀ x ∈ front, x.wellFormed = true := fun x hx =>
    hwf x (List.mem_append_left _ hx)
  have hm : m.wellFormed = true := hwf m (by simp)
  have hm1 : m1.wellFormed = true := hwf m1 (by simp)
  have hfF : ∀ x ∈ front, x.content.length < fuel := fun x hx =>
    hfuel x (List.mem_append_left _ hx)
  have hfm : m.content.length < fuel := hfuel m (by simp)
  obtain ⟨ar0, p, d, h0, hnext⟩ :=
    readArchive_front_new len fuel hlen front (m :: m1 :: rest) hwfF hfF
  -- the bytes after the content of `m`
  have henc : encodeMembers (m :: m1 :: rest) = encodeHeader m ++ (m.content ++
      ((if decide (m.content.length % 2 = 1) then [10] else []) ++
        (encodeHeader m1 ++ (m1.content ++ padByte m1 ++ encodeMembers rest)))) := by
    simp [encodeMembers, padByte, List.append_assoc]
  rw [henc, next_wellFormed m hm] at hnext
  have hskip : ∀ unread : List Nat,
      Next ⟨unread ++ ((if decide (m.content.length % 2 = 1) then [10] else []) ++
          (encodeHeader m1 ++ (m1.content ++ padByte m1 ++ encodeMembers rest))), none, true,
          decide (m.content.length % 2 = 1), true, (unread.length : Int)⟩ =
        (some m1.header, none,
          ⟨m1.content ++ padByte m1 ++ encodeMembers rest, none, true,
            decide (m1.content.length % 2 = 1), true, (m1.content.length : Int)⟩) :=
    fun unread => next_wellFormed m1 hm1 unread _ _ _
  refine ⟨ar0, _,
    ⟨m1.content ++ padByte m1 ++ encodeMembers rest, none, true,
      decide (m1.content.length % 2 = 1), true, (m1.content.length : Int)⟩,
    ⟨(if decide (m.content.length % 2 = 1) then [10] else []) ++
      (encodeHeader m1 ++ (m1.content ++ padByte m1 ++ encodeMembers rest)), none, true,
      decide (m.content.length % 2 = 1), true, 0⟩, h0, hnext, ?_, ?_, ?_, ?_, ?_⟩
  · rw [read_unread]
  · rw [read_unread]
    exact hskip _
  · intro lens
    obtain ⟨j, hj⟩ := readMany_unread ((if decide (m.content.length % 2 = 1) then [10] else []) ++
      (encodeHeader m1 ++ (m1.content ++ padByte m1 ++ encodeMembers rest))) true
      (decide (m.content.length % 2 = 1)) lens m.content
    rw [hj]
    exact hskip _
  · exact readAll_content len hlen fuel _ _ _ _ hfm
  · exact hskip []

set_option maxRecDepth 100000 in
/-- C2 at the sample archive: the member of odd size in the middle, one byte read. -/
theorem C2_partial_read_then_next_witness :
    (∀ x ∈ [memberDebianBinary] ++ memberOdd :: memberEmpty :: [], x.wellFormed = true) ∧
    0 < 2 ∧ (∀ x ∈ [memberDebianBinary] ++ [memberOdd], x.content.length < 5) ∧
    ∃ ar0 ar1 ar2 arF,
      readArchive 2 5 [memberDebianBinary].length
          (NewReader (encodeArchive ([memberDebianBinary] ++ memberOdd :: memberEmpty :: []))) =
        ([memberDebianBinary].map (fun x => (x.header, x.content)), none, ar0) ∧
      Next ar0 = (some memberOdd.header, none, ar1) ∧
      (Read ar1 1).1 = memberOdd.content.take 1 ∧
      Next (Read ar1 1).2.2 = (some memberEmpty.header, none, ar2) ∧
      (∀ lens : List Nat, Next (readMany ar1 lens) = (some memberEmpty.header, none, ar2)) ∧
      readAll 2 5 ar1 = (memberOdd.content, some Error.EOF, arF) ∧
      Next arF = (some memberEmpty.header, none, ar2) :=
  ⟨by decide, by decide, by decide,
    C2_partial_read_then_next [memberDebianBinary] [] memberOdd memberEmpty 2 5 1
      (by decide) (by decide) (by decide)⟩

/-! ## The position of the header block -/

theorem next_atHeader (ar : Reader) (s : List Nat) (h : atHeader ar = some s) :
    Next ar = headerResult (readHeader { skipUnread ar with r := s, valid := true }) ∧
      (skipUnread ar).err = none := by
  obtain ⟨r, err, valid, padded, dataR, dataN⟩ := ar
  unfold atHeader at h
  cases err with
  | some e => simp at h
  | none =>
    simp only at h
    cases hs : skipUnread ⟨r, none, valid, padded, dataR, dataN⟩ with
    | mk r1 err1 valid1 padded1 dataR1 dataN1 =>
      rw [hs] at h
      cases err1 with
      | some e => simp at h
      | none =>
        simp only at h
        cases valid1 with
        | true =>
          simp only [if_true, Option.some.injEq] at h
          subst h
          simp [Next, hs, headerResult]
        | false =>
          simp only [Bool.false_eq_true, if_false, validate, copyNDiscard] at h
          by_cases hlen : magic.length ≤ r1.length
          · simp only [hlen, if_true, Option.some.injEq] at h
            subst h
            simp [Next, hs, headerResult, validate, copyNDiscard, hlen]
          · simp [hlen] at h

set_option maxRecDepth 100000 in
/-- C3: the code at a stream whose first eight bytes are "XXXXXXXX" instead of the magic
string, followed by a well-formed member: the first `Next` does not fail with `ErrMagic`
but returns the header of that member; `validate` discards eight bytes without comparing
them with `magic`. -/
theorem C3_bad_magic_accepted :
    badMagic.length = 8 ∧ badMagic ≠ magic ∧
    Next (NewReader (badMagic ++ encodeMembers [memberDebianBinary])) =
      (some memberDebianBinary.header, none,
        ⟨[50, 46, 48, 10], none, true, false, true, 4⟩) := by
  decide

/-- C4, as stated, fails: with one byte left where the header block should start, `Next`
returns `io.ErrUnexpectedEOF`, not `ErrHeader`. -/
theorem C4_truncated_header_counterexample :
    atHeader (NewReader (magic ++ [49])) = some [49] ∧
    Next (NewReader (magic ++ [49])) =
      (none, some Error.ErrUnexpectedEOF,
        ⟨[], some Error.ErrUnexpectedEOF, true, false, false, 0⟩) ∧
    (Next (NewReader (magic ++ [49]))).2.1 ≠ some Error.ErrHeader := by
  decide

theorem readHeader_short (ar : Reader) (h1 : 1 ≤ ar.r.length) (h2 : ar.r.length ≤ 59) :
    readHeader ar = (none, { ar with r := [], err := some Error.ErrUnexpectedEOF }) := by
  have hne : ar.r ≠ [] := by
    intro h; rw [h] at h1; simp at h1
  have hlt : ¬ (blockSize ≤ ar.r.length) := by simp [blockSize]; omega
  simp [readHeader, readFull, hlt, hne]

theorem readHeader_empty (ar : Reader) (h : ar.r = []) :
    readHeader ar = (none, { ar with r := [], err := some Error.EOF }) := by
  simp [readHeader, readFull, h, blockSize]

theorem readHeader_full_error (ar : Reader) (h : blockSize ≤ ar.r.length) :
    (headerResult (readHeader ar)).2.1 = none ∨
      (headerResult (readHeader ar)).2.1 = some Error.ErrHeader := by
  unfold readHeader
  simp only [readFull, h, if_true]
  split
  · right; rfl
  · split
    · right; rfl
    · left; rfl

/-- C4, amended: when `Next` comes to the position where a member header should start
and between 1 and 59 bytes remain in the stream, it returns `io.ErrUnexpectedEOF` and no
header, and it consumes those bytes; it returns `io.EOF` there exactly when 0 bytes
remain. -/
theorem C4_truncated_header (ar : Reader) (s : List Nat) (h : atHeader ar = some s) :
    (1 ≤ s.length ∧ s.length ≤ 59 →
      (Next ar).1 = none ∧ (Next ar).2.1 = some Error.ErrUnexpectedEOF ∧
        (Next ar).2.2.r = [] ∧ (Next ar).2.2.err = some Error.ErrUnexpectedEOF) ∧
    ((Next ar).2.1 = some Error.EOF ↔ s.length = 0) := by
  obtain ⟨hnext, herr⟩ := next_atHeader ar s h
  rw [hnext]
  constructor
  · rintro ⟨h1, h2⟩
    rw [readHeader_short _ h1 h2]
    simp [headerResult]
  · constructor
    · intro he
      by_contra hne
      by_cases hs : s.length ≤ 59
      · rw [readHeader_short _ (by simp only; omega) hs] at he
        simp [headerResult] at he
      · have hfull : blockSize ≤ s.length := by simp [blockSize]; omega
        rcases readHeader_full_error { skipUnread ar with r := s, valid := true } hfull
          with h0 | h0
        · rw [h0] at he; simp at he
        · rw [h0] at he; simp at he
    · intro h0
      rw [readHeader_empty _ (List.length_eq_zero.1 h0)]
      simp [headerResult]

/-- C4 (amended) at the stream that ends one byte after the magic string. -/
theorem C4_truncated_header_witness :
    atHeader (NewReader (magic ++ [49])) = some [49] ∧ 1 ≤ [49].length ∧ [49].length ≤ 59 ∧
    (Next (NewReader (magic ++ [49]))).1 = none ∧
    (Next (NewReader (magic ++ [49]))).2.1 = some Error.ErrUnexpectedEOF ∧
    (Next (NewReader (magic ++ [49]))).2.2.r = [] ∧
    (Next (NewReader (magic ++ [49]))).2.2.err = some Error.ErrUnexpectedEOF :=
  ⟨by decide, by decide, by decide,
    (C4_truncated_header (NewReader (magic ++ [49])) [49] (by decide)).1
      ⟨by decide, by decide⟩⟩

/-! ## The state after a successful `Next` -/

theorem readHeader_some (ar ar1 : Reader) (h : Header) (hr : readHeader ar = (some h, ar1)) :
    ar1.err = none ∧ ar1.valid = ar.valid ∧ ar1.dataR = true ∧ ar1.dataN = h.Size ∧
      ar1.padded = decide (Int.tmod h.Size 2 = 1) := by
  unfold readHeader at hr
  simp only at hr
  split at hr
  · simp at hr
  · split at hr
    · simp at hr
    · split at hr
      · simp at hr
      · rename_i hnone
        simp only [Prod.mk.injEq, Option.some.injEq] at hr
        obtain ⟨hh, har⟩ := hr
        subst hh har
        simp only [ne_eq, Decidable.not_not] at hnone
        refine ⟨hnone, ?_, rfl, rfl, rfl⟩
        simp [modTime, readInt]
        repeat' split
        all_goals rfl

theorem next_cases (ar : Reader) :
    Next ar =
      (let a := if ar.err = none then skipUnread ar else ar
       match a.err with
       | some e => (none, some e, a)
       | none =>
         if a.valid then headerResult (readHeader a)
         else if magic.length ≤ a.r.length then
           headerResult (readHeader { a with r := a.r.drop magic.length, valid := true })
         else (none, some Error.ErrMagic, { a with r := [] })) := by
  unfold Next
  simp only
  generalize (if ar.err = none then skipUnread ar else ar) = a
  cases he : a.err with
  | some e => rfl
  | none =>
    simp only
    cases hv : a.valid with
    | true =>
      simp only [Bool.not_true, Bool.false_eq_true, if_false, if_true, headerResult]
    | false =>
      simp only [Bool.not_false, if_true, Bool.false_eq_true, if_false, validate,
        copyNDiscard]
      by_cases hlen : magic.length ≤ a.r.length
      · simp only [hlen, if_true, headerResult]
        split <;> simp_all
      · simp [hlen, he, hv]

theorem next_some (ar ar1 : Reader) (h : Header) (e : Option Error)
    (hn : Next ar = (some h, e, ar1)) :
    e = none ∧ ar1.err = none ∧ ar1.valid = true ∧ ar1.dataR = true ∧ ar1.dataN = h.Size ∧
      ar1.padded = decide (Int.tmod h.Size 2 = 1) := by
  rw [next_cases] at hn
  simp only at hn
  generalize (if ar.err = none then skipUnread ar else ar) = a at hn
  have key : ∀ b : Reader, b.valid = true → headerResult (readHeader b) = (some h, e, ar1) →
      e = none ∧ ar1.err = none ∧ ar1.valid = true ∧ ar1.dataR = true ∧
        ar1.dataN = h.Size ∧ ar1.padded = decide (Int.tmod h.Size 2 = 1) := by
    intro b hb hres
    cases hrh : readHeader b with
    | mk oh b1 =>
      rw [hrh] at hres
      cases oh with
      | none => simp [headerResult] at hres
      | some h1 =>
        simp only [headerResult, Prod.mk.injEq, Option.some.injEq] at hres
        obtain ⟨hh, he, hb1⟩ := hres
        subst hh hb1
        obtain ⟨h1, h2, h3, h4, h5⟩ := readHeader_some _ _ _ hrh
        exact ⟨he.symm, h1, by rw [h2, hb], h3, h4, h5⟩
  cases he : a.err with
  | some e1 => rw [he] at hn; simp at hn
  | none =>
    rw [he] at hn
    simp only at hn
    split at hn
    · rename_i hv
      exact key a hv hn
    · split at hn
      · exact key _ rfl hn
      · simp at hn

/-! ## The pad byte -/

theorem skipUnread_held (unread rest : List Nat) (e : Option Error)
    (valid padded dataR : Bool) :
    skipUnread ⟨unread ++ rest, e, valid, padded, dataR, (unread.length : Int)⟩ =
      if padded then
        ⟨rest.drop 1, if rest.head? = some 10 then none else some Error.ErrHeader, valid,
          padded, dataR, 0⟩
      else ⟨rest, none, valid, padded, dataR, 0⟩ := by
  unfold skipUnread
  simp only [copyDiscard_unread]
  cases padded with
  | false => simp
  | true =>
    cases rest with
    | nil => simp [streamRead]
    | cons c t =>
      by_cases hc : c = 10
      · simp [streamRead, hc]
      · simp [streamRead, hc]

theorem next_held (unread rest : List Nat) (padded dataR : Bool) :
    Next ⟨unread ++ rest, none, true, padded, dataR, (unread.length : Int)⟩ =
      if padded then
        if rest.head? = some 10 then
          headerResult (readHeader ⟨rest.drop 1, none, true, padded, dataR, 0⟩)
        else
          (none, some Error.ErrHeader,
            ⟨rest.drop 1, some Error.ErrHeader, true, padded, dataR, 0⟩)
      else headerResult (readHeader ⟨rest, none, true, padded, dataR, 0⟩) := by
  rw [next_cases]
  simp only [if_true, skipUnread_held]
  cases padded with
  | false => simp
  | true =>
    by_cases hc : rest.head? = some 10
    · simp [hc]
    · simp [hc]

/-- C5: let `Next` have returned a header `h` and let the stream hold all `h.Size` content
bytes (`content`), followed by `rest`.  After any sequence of `Read` calls, the following
`Next` behaves as follows.  For odd `Size` it consumes exactly one byte after the
content: if that byte is not a line feed, or the stream ends there, it returns `ErrHeader`
and no header; if it is a line feed, the header block is read from the byte right after
it.  For even `Size` no pad byte is consumed: the header block is read from the byte
right after the content. -/
theorem C5_pad_byte (ar0 ar1 : Reader) (h : Header) (content rest : List Nat)
    (lens : List Nat) (hnext : Next ar0 = (some h, none, ar1))
    (hstream : ar1.r = content ++ rest) (hsize : h.Size = (content.length : Int)) :
    (h.Size % 2 = 1 →
      (rest.head? ≠ some 10 →
        Next (readMany ar1 lens) =
          (none, some Error.ErrHeader,
            ⟨rest.drop 1, some Error.ErrHeader, true, true, true, 0⟩)) ∧
      (∀ rest1, rest = 10 :: rest1 →
        Next (readMany ar1 lens) =
          headerResult (readHeader ⟨rest1, none, true, true, true, 0⟩))) ∧
    (h.Size % 2 = 0 →
      Next (readMany ar1 lens) =
        headerResult (readHeader ⟨rest, none, true, false, true, 0⟩)) := by
  obtain ⟨_, h1, h2, h3, h4, h5⟩ := next_some ar0 ar1 h none hnext
  obtain ⟨r, err, valid, padded, dataR, dataN⟩ := ar1
  simp only at hstream h1 h2 h3 h4 h5
  rw [hsize] at h4 h5
  subst hstream h1 h2 h3 h4
  have htmod : Int.tmod ((content.length : Nat) : Int) 2 = ((content.length % 2 : Nat) : Int) := by
    rw [Int.tmod_eq_emod (by omega) (by omega)]; rfl
  obtain ⟨j, hj⟩ := readMany_unread rest true padded lens content
  rw [hj, next_held, hsize]
  constructor
  · intro hodd
    have hp : padded = true := by
      rw [h5, htmod]
      simp only [decide_eq_true_eq]
      omega
    subst hp
    constructor
    · intro hne
      simp [hne]
    · intro rest1 hr
      subst hr
      simp
  · intro heven
    have hp : padded = false := by
      rw [h5, htmod]
      simp only [decide_eq_false_iff_not]
      omega
    subst hp
    simp

set_option maxRecDepth 100000 in
/-- C5 at the sample member of odd size followed by an empty member, two bytes read. -/
theorem C5_pad_byte_witness :
    Next (NewReader (encodeArchive [memberOdd, memberEmpty])) =
      (some memberOdd.header, none,
        ⟨[97, 98, 99] ++ (10 :: encodeMembers [memberEmpty]), none, true, true, true, 3⟩) ∧
    memberOdd.header.Size = (([97, 98, 99] : List Nat).length : Int) ∧
    memberOdd.header.Size % 2 = 1 ∧
    Next (readMany ⟨[97, 98, 99] ++ (10 :: encodeMembers [memberEmpty]), none, true, true,
        true, 3⟩ [2]) =
      headerResult (readHeader ⟨encodeMembers [memberEmpty], none, true, true, true, 0⟩) :=
  ⟨by decide, by decide, by decide,
    ((C5_pad_byte (NewReader (encodeArchive [memberOdd, memberEmpty]))
      ⟨[97, 98, 99] ++ (10 :: encodeMembers [memberEmpty]), none, true, true, true, 3⟩
      memberOdd.header [97, 98, 99] (10 :: encodeMembers [memberEmpty]) [2]
      (by decide) rfl (by decide)).1 (by decide)).2 _ rfl⟩

/-! ## Bounded reads -/

theorem drop_min_length (n : Nat) (l : List Nat) :
    List.drop (min n l.length) l = List.drop n l := by
  by_cases h : n ≤ l.length
  · rw [Nat.min_eq_left h]
  · have h1 : l.length ≤ n := by omega
    rw [Nat.min_eq_right h1, List.drop_length, List.drop_of_length_le h1]

set_option maxRecDepth 100000 in
/-- C6, as stated, fails: a header whose size field reads "-1" is accepted and leaves the
remaining count at -1; `Read` then returns 0 bytes, which is not at most
`min(L, remaining) = -1`. -/
theorem C6_read_bound_counterexample :
    Next (NewReader (magic ++ negativeSizeHeader ++ [1, 2, 3])) =
      (some ⟨[97], Time.zero, 0, 0, 420, -1⟩, none,
        ⟨[1, 2, 3], none, true, false, true, -1⟩) ∧
    Read ⟨[1, 2, 3], none, true, false, true, -1⟩ 1 =
      ([], some Error.EOF, ⟨[1, 2, 3], none, true, false, true, -1⟩) ∧
    ¬ ((([] : List Nat).length : Int) ≤ min (1 : Int) (-1)) := by
  decide

/-- C6, amended: for every reader state with a current member and no recorded error, and
every buffer length `len`, `Read` returns `n` bytes with `n ≤ len` and
`n ≤ max(remaining, 0)` (in fact `n` is the least of `len`, the remaining count and the
number of bytes the stream still holds); they are the next `n` bytes of the stream, the
stream advances by exactly `n` bytes, the remaining count decreases by exactly `n` and
nothing else in the reader changes.  When the remaining count is 0 or negative, `Read`
returns 0 bytes with `io.EOF` and consumes nothing. -/
theorem C6_read_bound (ar : Reader) (len : Nat) (herr : ar.err = none)
    (hd : ar.dataR = true) :
    ((Read ar len).1.length ≤ len ∧
      ((Read ar len).1.length : Int) ≤ max ar.dataN 0 ∧
      (Read ar len).1.length = min len (min ar.dataN.toNat ar.r.length) ∧
      (Read ar len).1 = ar.r.take (Read ar len).1.length ∧
      (Read ar len).2.2 =
        { ar with r := ar.r.drop (Read ar len).1.length,
                  dataN := ar.dataN - ((Read ar len).1.length : Int) }) ∧
    (ar.dataN ≤ 0 → Read ar len = ([], some Error.EOF, ar)) := by
  obtain ⟨r, err, valid, padded, dataR, dataN⟩ := ar
  simp only at herr hd
  subst herr hd
  by_cases hn : dataN ≤ 0
  · have h0 : dataN.toNat = 0 := by omega
    simp [Read, limitedRead, hn, h0]
  · have hpos : 0 < dataN := by omega
    refine ⟨?_, fun h => absurd h hn⟩
    cases r with
    | nil => simp [Read, limitedRead, hn, streamRead]
    | cons c t =>
      simp only [Read, Bool.not_true, Bool.false_eq_true, if_false, limitedRead, hn,
        streamRead, List.cons_ne_nil, List.length_take, List.take_take]
      by_cases hc : (len : Int) > dataN
      · simp only [hc, if_true]
        refine ⟨by omega, by omega, by omega, by simp, ?_⟩
        congr 1
        exact (drop_min_length _ _).symm
      · simp only [hc, if_false]
        refine ⟨by omega, by omega, by omega, by simp, ?_⟩
        congr 1
        exact (drop_min_length _ _).symm

set_option maxRecDepth 100000 in
/-- C6 (amended) at the state after the header of the sample member "debian-binary",
with a buffer of three bytes. -/
theorem C6_read_bound_witness :
    (⟨[50, 46, 48, 10, 7], none, true, false, true, 4⟩ : Reader).err = none ∧
    (⟨[50, 46, 48, 10, 7], none, true, false, true, 4⟩ : Reader).dataR = true ∧
    (Read ⟨[50, 46, 48, 10, 7], none, true, false, true, 4⟩ 3).1.length = 3 ∧
    (Read ⟨[50, 46, 48, 10, 7], none, true, false, true, 4⟩ 3).1 = [50, 46, 48] ∧
    (Read ⟨[50, 46, 48, 10, 7], none, true, false, true, 4⟩ 3).2.2 =
      ⟨[10, 7], none, true, false, true, 1⟩ :=
  ⟨rfl, rfl,
    by
      have h := (C6_read_bound ⟨[50, 46, 48, 10, 7], none, true, false, true, 4⟩ 3 rfl rfl).1
      exact h.2.2.1.trans (by decide),
    by decide, by decide⟩

/-! ## Sticky errors -/

theorem next_of_err (ar : Reader) (e : Error) (h : ar.err = some e) :
    Next ar = (none, some e, ar) := by
  simp [Next, h]

theorem read_of_err (ar : Reader) (e : Error) (len : Nat) (h : ar.err = some e) :
    Read ar len = ([], some e, ar) := by
  simp [Read, h]

theorem run_of_err (ar : Reader) (e : Error) (op : Op) (h : ar.err = some e) :
    op.run ar = (none, [], some e, ar) := by
  cases op with
  | next => simp [Op.run, next_of_err ar e h]
  | read len => simp [Op.run, read_of_err ar e len h]

theorem runOps_of_err (e : Error) (ops : List Op) :
    ∀ ar : Reader, ar.err = some e → runOps ar ops = ar := by
  induction ops with
  | nil => intro ar _; rfl
  | cons op ops ih =>
    intro ar h
    simp only [runOps, List.foldl_cons, run_of_err ar e op h]
    exact ih ar h

theorem next_error_recorded (ar ar1 : Reader) (e : Error)
    (hn : Next ar = (none, some e, ar1)) (hm : e ≠ Error.ErrMagic) : ar1.err = some e := by
  rw [next_cases] at hn
  simp only at hn
  generalize (if ar.err = none then skipUnread ar else ar) = a at hn
  have key : ∀ b : Reader, headerResult (readHeader b) = (none, some e, ar1) →
      ar1.err = some e := by
    intro b hres
    cases hrh : readHeader b with
    | mk oh b1 =>
      rw [hrh] at hres
      cases oh with
      | some h1 => simp [headerResult] at hres
      | none =>
        simp only [headerResult, Prod.mk.injEq, true_and] at hres
        rw [← hres.2]
        exact hres.1
  cases he : a.err with
  | some e1 =>
    rw [he] at hn
    simp only [Prod.mk.injEq, Option.some.injEq, true_and] at hn
    rw [← hn.2, he, hn.1]
  | none =>
    rw [he] at hn
    simp only at hn
    split at hn
    · exact key a hn
    · split at hn
      · exact key _ hn
      · simp only [Prod.mk.injEq, Option.some.injEq, true_and] at hn
        exact absurd hn.1.symm hm

/-- C7: once `Next` has returned no header and an error `e` other than `ErrMagic`
(`io.EOF` at the end of the archive, `io.ErrUnexpectedEOF` or `ErrHeader`), `e` is the
recorded error of the reader, and after any sequence of later calls every call of `Next`
returns `(nil, e)` and every call of `Read` returns `(0, e)`, consumes no byte and leaves
the reader state as it was; no header is returned any more. -/
theorem C7_sticky_error (ar ar1 : Reader) (e : Error)
    (hn : Next ar = (none, some e, ar1)) (hm : e ≠ Error.ErrMagic) :
    ar1.err = some e ∧
    ∀ (ops : List Op), runOps ar1 ops = ar1 ∧
      Next (runOps ar1 ops) = (none, some e, ar1) ∧
      ∀ len, Read (runOps ar1 ops) len = ([], some e, ar1) := by
  have h := next_error_recorded ar ar1 e hn hm
  refine ⟨h, fun ops => ?_⟩
  rw [runOps_of_err e ops ar1 h]
  exact ⟨rfl, next_of_err ar1 e h, fun len => read_of_err ar1 e len h⟩

/-- C7 at the archive without members: the first `Next` returns `io.EOF`. -/
theorem C7_sticky_error_witness :
    Next (NewReader magic) = (none, some Error.EOF, ⟨[], some Error.EOF, true, false, false, 0⟩) ∧
    Error.EOF ≠ Error.ErrMagic ∧
    (⟨[], some Error.EOF, true, false, false, 0⟩ : Reader).err = some Error.EOF ∧
    ∀ (ops : List Op),
      runOps ⟨[], some Error.EOF, true, false, false, 0⟩ ops =
        ⟨[], some Error.EOF, true, false, false, 0⟩ ∧
      Next (runOps ⟨[], some Error.EOF, true, false, false, 0⟩ ops) =
        (none, some Error.EOF, ⟨[], some Error.EOF, true, false, false, 0⟩) ∧
      ∀ len, Read (runOps ⟨[], some Error.EOF, true, false, false, 0⟩ ops) len =
        ([], some Error.EOF, ⟨[], some Error.EOF, true, false, false, 0⟩) :=
  ⟨by decide, by decide,
    C7_sticky_error (NewReader magic) ⟨[], some Error.EOF, true, false, false, 0⟩ Error.EOF
      (by decide) (by decide)⟩

/-- C8: the code at the empty stream.  The first `Next` fails with `ErrMagic` but records
no error (the reader is left as `NewReader` made it), so the following `Read` returns
`os.ErrNotExist`, not `ErrMagic`; a following `Next` runs the validation again. -/
theorem C8_magic_error_not_recorded :
    Next (NewReader []) = (none, some Error.ErrMagic, NewReader []) ∧
    (Next (NewReader [])).2.2.err = none ∧
    Read (Next (NewReader [])).2.2 1 = ([], some Error.ErrNotExist, NewReader []) ∧
    Next (Next (NewReader [])).2.2 = (none, some Error.ErrMagic, NewReader []) := by
  decide

/-! ## `readHeader` on an arbitrary full block -/

theorem readFull_block (raw rest : List Nat) (hl : raw.length = 60) :
    readFull (raw ++ rest) blockSize = (raw, none, rest) := by
  have hle : blockSize ≤ (raw ++ rest).length := by simp [blockSize, hl]
  simp only [readFull, hle, if_true]
  rw [List.take_left' (by simpa [blockSize] using hl),
    List.drop_left' (by simpa [blockSize] using hl)]

theorem readInt_err_none_iff (a : Reader) (b : List Nat) (base : Nat) :
    (readInt a b base).2.err = none ↔ a.err = none ∧ parses b base = true := by
  unfold readInt parses
  cases parseInt (trimSpace b) base <;> simp

theorem readInt_snd_of_parses (a : Reader) (b : List Nat) (base : Nat)
    (h : parses b base = true) : (readInt a b base).2 = a := by
  unfold readInt
  unfold parses at h
  cases hp : parseInt (trimSpace b) base <;> simp_all

theorem readInt_fst_of_parses (a : Reader) (b : List Nat) (base : Nat)
    (h : parses b base = true) :
    parseInt (trimSpace b) base = .ok (readInt a b base).1 := by
  unfold readInt
  unfold parses at h
  cases hp : parseInt (trimSpace b) base <;> simp_all

theorem readInt_frame (a : Reader) (b : List Nat) (base : Nat) (x : Option Error) :
    { (readInt a b base).2 with err := x } = { a with err := x } := by
  unfold readInt
  cases parseInt (trimSpace b) base <;> rfl

theorem readHeader_eq (a : Reader) (raw rest : List Nat) (ha : a.r = raw ++ rest)
    (hl : raw.length = 60) :
    readHeader a =
      if slice raw 58 60 ≠ fileMagic then
        (none, { a with r := rest, err := some Error.ErrHeader })
      else
        let r1 := readInt { a with r := rest } (slice raw 16 28) 10
        let r2 := readInt r1.2 (slice raw 28 34) 10
        let r3 := readInt r2.2 (slice raw 34 40) 10
        let r4 := readInt r3.2 (slice raw 40 48) 8
        let r5 := readInt r4.2 (slice raw 48 58) 10
        if r5.2.err ≠ none then (none, { r5.2 with err := some Error.ErrHeader })
        else
          (some { Name := trimSpace (slice raw 0 16),
                  ModTime := if r1.1 = 0 then Time.zero else Time.unix r1.1,
                  Uid := r2.1, Gid := r3.1, Mode := r4.1, Size := r5.1 },
            { r5.2 with dataR := true, dataN := r5.1,
                        padded := decide (Int.tmod r5.1 2 = 1) }) := by
  unfold readHeader
  simp only [ha, readFull_block raw rest hl]
  have hterm : slice raw (blockSize - 2) blockSize = slice raw 58 60 := rfl
  rw [hterm]
  by_cases ht : slice raw 58 60 = fileMagic
  · simp only [ht, ne_eq, not_true_eq_false, if_false, modTime]
    by_cases h0 : (readInt { a with r := rest } (slice raw 16 28) 10).1 = 0
    · simp only [h0, if_true]
    · simp only [h0, if_false]
  · simp only [ht, ne_eq, not_false_eq_true, if_true]

theorem blockOk_iff (raw : List Nat) :
    blockOk raw = true ↔
      slice raw 58 60 = fileMagic ∧ parses (slice raw 16 28) 10 = true ∧
      parses (slice raw 28 34) 10 = true ∧ parses (slice raw 34 40) 10 = true ∧
      parses (slice raw 40 48) 8 = true ∧ parses (slice raw 48 58) 10 = true := by
  simp [blockOk, and_assoc]

theorem readHeader_block_bad (a : Reader) (raw rest : List Nat) (ha : a.r = raw ++ rest)
    (hl : raw.length = 60) (hb : ¬ blockOk raw = true) :
    readHeader a = (none, { a with r := rest, err := some Error.ErrHeader }) := by
  rw [readHeader_eq a raw rest ha hl]
  by_cases ht : slice raw 58 60 = fileMagic
  · simp only [ht, ne_eq, not_true_eq_false, if_false]
    have herr : (readInt (readInt (readInt (readInt (readInt { a with r := rest }
        (slice raw 16 28) 10).2 (slice raw 28 34) 10).2 (slice raw 34 40) 10).2
        (slice raw 40 48) 8).2 (slice raw 48 58) 10).2.err ≠ none := by
      intro hnone
      rw [readInt_err_none_iff, readInt_err_none_iff, readInt_err_none_iff,
        readInt_err_none_iff, readInt_err_none_iff] at hnone
      exact hb ((blockOk_iff raw).2 ⟨ht, hnone.1.1.1.1.2, hnone.1.1.1.2, hnone.1.1.2,
        hnone.1.2, hnone.2⟩)
    simp only [herr, not_false_eq_true, if_true, readInt_frame]
  · simp only [ht, ne_eq, not_false_eq_true, if_true]

theorem readHeader_block_ok (a : Reader) (raw rest : List Nat) (ha : a.r = raw ++ rest)
    (hl : raw.length = 60) (he : a.err = none) (hb : blockOk raw = true) :
    ∃ h : Header,
      readHeader a = (some h, { a with r := rest, dataR := true, dataN := h.Size,
                                       padded := decide (Int.tmod h.Size 2 = 1) }) ∧
      h.Name = trimSpace (slice raw 0 16) ∧
      (∃ mt, parseInt (trimSpace (slice raw 16 28)) 10 = .ok mt ∧
        h.ModTime = if mt = 0 then Time.zero else Time.unix mt) ∧
      parseInt (trimSpace (slice raw 28 34)) 10 = .ok h.Uid ∧
      parseInt (trimSpace (slice raw 34 40)) 10 = .ok h.Gid ∧
      parseInt (trimSpace (slice raw 40 48)) 8 = .ok h.Mode ∧
      parseInt (trimSpace (slice raw 48 58)) 10 = .ok h.Size := by
  obtain ⟨ht, p1, p2, p3, p4, p5⟩ := (blockOk_iff raw).1 hb
  rw [readHeader_eq a raw rest ha hl]
  simp only [ht, ne_eq, not_true_eq_false, if_false]
  have s1 := fun x => readInt_snd_of_parses x _ _ p1
  have s2 := fun x => readInt_snd_of_parses x _ _ p2
  have s3 := fun x => readInt_snd_of_parses x _ _ p3
  have s4 := fun x => readInt_snd_of_parses x _ _ p4
  have s5 := fun x => readInt_snd_of_parses x _ _ p5
  simp only [s1, s2, s3, s4, s5, he, not_true_eq_false, if_false]
  exact ⟨_, rfl, rfl, ⟨_, readInt_fst_of_parses _ _ _ p1, rfl⟩,
    readInt_fst_of_parses _ _ _ p2, readInt_fst_of_parses _ _ _ p3,
    readInt_fst_of_parses _ _ _ p4, readInt_fst_of_parses _ _ _ p5⟩

theorem atHeader_none_next (ar : Reader) (h : atHeader ar = none) : (Next ar).1 = none := by
  rw [next_cases]
  unfold atHeader at h
  cases he : ar.err with
  | some e => simp [he]
  | none =>
    simp only [he, if_true] at h ⊢
    cases hs : (skipUnread ar).err with
    | some e1 => simp
    | none =>
      simp only [hs] at h ⊢
      cases hv : (skipUnread ar).valid with
      | true => simp [hv] at h
      | false =>
        simp only [hv, Bool.false_eq_true, if_false, validate, copyNDiscard] at h ⊢
        by_cases hlen : magic.length ≤ (skipUnread ar).r.length
        · simp [hlen] at h
        · simp [hlen]

theorem headerBlock_eq (ar : Reader) (raw rest : List Nat)
    (h : atHeader ar = some (raw ++ rest)) (hl : raw.length = 60) : headerBlock ar = raw := by
  simp only [headerBlock, h, Option.getD_some]
  exact List.take_left' (by simpa [blockSize] using hl)

theorem next_block (ar : Reader) (raw rest : List Nat)
    (hpos : atHeader ar = some (raw ++ rest)) (hl : raw.length = 60) :
    (blockOk raw = true →
      ∃ (h : Header) (ar1 : Reader), Next ar = (some h, none, ar1) ∧
        h.Name = trimSpace (slice raw 0 16) ∧
        (∃ mt, parseInt (trimSpace (slice raw 16 28)) 10 = .ok mt ∧
          h.ModTime = if mt = 0 then Time.zero else Time.unix mt) ∧
        parseInt (trimSpace (slice raw 28 34)) 10 = .ok h.Uid ∧
        parseInt (trimSpace (slice raw 34 40)) 10 = .ok h.Gid ∧
        parseInt (trimSpace (slice raw 40 48)) 8 = .ok h.Mode ∧
        parseInt (trimSpace (slice raw 48 58)) 10 = .ok h.Size) ∧
    (¬ blockOk raw = true →
      Next ar = (none, some Error.ErrHeader,
        { skipUnread ar with r := rest, valid := true, err := some Error.ErrHeader })) := by
  obtain ⟨hnext, herr⟩ := next_atHeader ar (raw ++ rest) hpos
  rw [hnext]
  constructor
  · intro hb
    obtain ⟨h, hrh, hfields⟩ := readHeader_block_ok
      { skipUnread ar with r := raw ++ rest, valid := true } raw rest rfl hl herr hb
    exact ⟨h, _, by rw [hrh]; rfl, hfields⟩
  · intro hb
    rw [readHeader_block_bad { skipUnread ar with r := raw ++ rest, valid := true } raw rest
      rfl hl hb]
    rfl

theorem next_some_block (ar ar1 : Reader) (h : Header) (e : Option Error)
    (hn : Next ar = (some h, e, ar1)) :
    ∃ raw rest, atHeader ar = some (raw ++ rest) ∧ raw.length = 60 ∧ blockOk raw = true := by
  cases hpos : atHeader ar with
  | none =>
    have := atHeader_none_next ar hpos
    rw [hn] at this
    simp at this
  | some s =>
    obtain ⟨hnext, herr⟩ := next_atHeader ar s hpos
    by_cases hs : s.length ≤ 59
    · exfalso
      by_cases h0 : s.length = 0
      · rw [readHeader_empty _ (List.length_eq_zero.1 h0), hn] at hnext
        simp [headerResult] at hnext
      · rw [readHeader_short _ (by simp only; omega) hs, hn] at hnext
        simp [headerResult] at hnext
    · refine ⟨s.take 60, s.drop 60, by rw [List.take_append_drop], ?_, ?_⟩
      · rw [List.length_take]; omega
      · by_contra hb
        have hl : (s.take 60).length = 60 := by rw [List.length_take]; omega
        have hpos2 : atHeader ar = some (s.take 60 ++ s.drop 60) := by
          rw [List.take_append_drop]; exact hpos
        have := (next_block ar (s.take 60) (s.drop 60) hpos2 hl).2 hb
        rw [hn] at this
        simp at this

/-! ## Signs and acceptance of header fields -/

theorem parseInt_nonneg (s : List Nat) (base : Nat) (v : Int)
    (hp : parseInt s base = .ok v) (hs : s.head? ≠ some 45) : 0 ≤ v := by
  cases s with
  | nil => simp [parseInt] at hp
  | cons c rest =>
    have hc : (c == 45) = false := by
      simp only [List.head?_cons, ne_eq, Option.some.injEq] at hs
      simpa using hs
    simp only [parseInt, hc, Bool.or_false, Bool.not_false, Bool.true_and, Bool.false_and,
      Bool.false_eq_true, if_false] at hp
    split at hp
    · simp at hp
    · split at hp
      · simp at hp
      · simp only [Except.ok.injEq] at hp
        rw [← hp]
        exact Int.natCast_nonneg _

set_option maxRecDepth 100000 in
/-- C9, as stated, fails: a header block whose uid, gid and size fields read "-1", "-2"
and "-3" is accepted, and the header returned has `Uid = -1`, `Gid = -2`, `Size = -3`. -/
theorem C9_negative_fields_counterexample :
    Next (NewReader (magic ++ negativeFieldsHeader)) =
      (some ⟨[97], Time.zero, -1, -2, 420, -3⟩, none,
        ⟨[], none, true, false, true, -3⟩) ∧
    ¬ ((0 : Int) ≤ -1 ∧ (0 : Int) ≤ -2 ∧ (0 : Int) ≤ -3) := by
  decide

/-- C9, amended: for every reader state, a header returned by `Next` has `Uid ≥ 0`
whenever the text of the uid field of its header block, after trimming, does not begin
with a minus sign, and likewise `Gid ≥ 0` and `Size ≥ 0` for the gid and size fields. -/
theorem C9_nonnegative_without_minus (ar ar1 : Reader) (h : Header) (e : Option Error)
    (hn : Next ar = (some h, e, ar1)) :
    ((trimSpace (slice (headerBlock ar) 28 34)).head? ≠ some 45 → 0 ≤ h.Uid) ∧
    ((trimSpace (slice (headerBlock ar) 34 40)).head? ≠ some 45 → 0 ≤ h.Gid) ∧
    ((trimSpace (slice (headerBlock ar) 48 58)).head? ≠ some 45 → 0 ≤ h.Size) := by
  obtain ⟨raw, rest, hpos, hl, hb⟩ := next_some_block ar ar1 h e hn
  obtain ⟨h1, a1, hnext, _, _, hu, hg, _, hs⟩ := (next_block ar raw rest hpos hl).1 hb
  rw [hn] at hnext
  simp only [Prod.mk.injEq, Option.some.injEq] at hnext
  obtain ⟨hh, _, _⟩ := hnext
  subst hh
  rw [headerBlock_eq ar raw rest hpos hl]
  exact ⟨parseInt_nonneg _ _ _ hu, parseInt_nonneg _ _ _ hg, parseInt_nonneg _ _ _ hs⟩

set_option maxRecDepth 100000 in
/-- C9 (amended) at the archive holding the sample member "debian-binary". -/
theorem C9_nonnegative_without_minus_witness :
    Next (NewReader (encodeArchive [memberDebianBinary])) =
      (some memberDebianBinary.header, none,
        ⟨[50, 46, 48, 10], none, true, false, true, 4⟩) ∧
    (trimSpace (slice (headerBlock (NewReader (encodeArchive [memberDebianBinary]))) 28 34)).head?
      ≠ some 45 ∧
    0 ≤ memberDebianBinary.header.Uid :=
  ⟨by decide, by decide,
    (C9_nonnegative_without_minus (NewReader (encodeArchive [memberDebianBinary]))
      ⟨[50, 46, 48, 10], none, true, false, true, 4⟩ memberDebianBinary.header none
      (by decide)).1 (by decide)⟩

/-- C10: when `Next` comes to read a header block and the stream holds a full block of 60
bytes there, `Next` returns a header if and only if bytes 58..59 of the block are
0x60 0x0A and, after trimming white space, the mtime (bytes 16..27), uid (28..33),
gid (34..39) and size (48..57) fields parse as base-10 integers and the mode field
(40..47) as a base-8 integer; in every other case `Next` returns `ErrHeader` and no
header, whichever field failed and whatever the other fields hold. -/
theorem C10_header_accepted_iff (ar : Reader) (raw rest : List Nat)
    (hpos : atHeader ar = some (raw ++ rest)) (hl : raw.length = 60) :
    ((∃ (h : Header) (ar1 : Reader), Next ar = (some h, none, ar1)) ↔
      (slice raw 58 60 = fileMagic ∧ parses (slice raw 16 28) 10 = true ∧
        parses (slice raw 28 34) 10 = true ∧ parses (slice raw 34 40) 10 = true ∧
        parses (slice raw 40 48) 8 = true ∧ parses (slice raw 48 58) 10 = true)) ∧
    ((¬ ∃ (h : Header) (ar1 : Reader), Next ar = (some h, none, ar1)) →
      (Next ar).1 = none ∧ (Next ar).2.1 = some Error.ErrHeader ∧
        (Next ar).2.2.err = some Error.ErrHeader) := by
  have hblock := next_block ar raw rest hpos hl
  rw [← blockOk_iff]
  by_cases hb : blockOk raw = true
  · obtain ⟨h, ar1, hnext, _⟩ := hblock.1 hb
    exact ⟨⟨fun _ => hb, fun _ => ⟨h, ar1, hnext⟩⟩, fun hno => absurd ⟨h, ar1, hnext⟩ hno⟩
  · have hnext := hblock.2 hb
    refine ⟨⟨?_, fun h => absurd h hb⟩, fun _ => by rw [hnext]; exact ⟨rfl, rfl, rfl⟩⟩
    rintro ⟨h, ar1, hh⟩
    rw [hnext] at hh
    simp at hh

set_option maxRecDepth 100000 in
/-- C10 at the header block of the sample member "debian-binary", right after the magic
string: the block is acceptable and `Next` returns a header. -/
theorem C10_header_accepted_iff_witness :
    atHeader (NewReader (magic ++ encodeHeader memberDebianBinary)) =
      some (encodeHeader memberDebianBinary ++ []) ∧
    (encodeHeader memberDebianBinary).length = 60 ∧
    ∃ (h : Header) (ar1 : Reader),
      Next (NewReader (magic ++ encodeHeader memberDebianBinary)) = (some h, none, ar1) :=
  ⟨by decide, by decide,
    (C10_header_accepted_iff (NewReader (magic ++ encodeHeader memberDebianBinary))
      (encodeHeader memberDebianBinary) [] (by decide) (by decide)).1.2 (by decide)⟩

/-! ## The closed forms agree with the loops of package io -/

theorem discardLoop_eq : ∀ (fuel : Nat) (s : List Nat) (n : Int), s.length < fuel →
    discardLoop fuel s n = copyDiscard s n := by
  intro fuel
  induction fuel with
  | zero => intro s n h; omega
  | succ fuel ih =>
    intro s n h
    by_cases hn : n ≤ 0
    · have h0 : n.toNat = 0 := by omega
      simp [discardLoop, limitedRead, hn, copyDiscard, h0]
    · cases s with
      | nil => simp [discardLoop, limitedRead, hn, streamRead, copyDiscard]
      | cons c t =>
        -- the number of bytes the first call delivers
        obtain ⟨a, ha1, ha2, ha3, ha⟩ : ∃ a : Nat, 0 < a ∧ a ≤ (c :: t).length ∧
            (a : Int) ≤ n ∧
            limitedRead (c :: t) n 8192 =
              ((c :: t).take a, none, (c :: t).drop a, n - (a : Int)) := by
          by_cases hc : ((8192 : Nat) : Int) > n
          · refine ⟨min n.toNat (c :: t).length, ?_, ?_, ?_, ?_⟩
            · simp only [List.length_cons]; omega
            · exact Nat.min_le_right _ _
            · omega
            · simp only [limitedRead, hn, if_false, hc, if_true, streamRead,
                List.cons_ne_nil, List.length_take]
              rw [← List.take_take, List.take_length, drop_min_length]
          · refine ⟨min 8192 (c :: t).length, ?_, ?_, ?_, ?_⟩
            · simp only [List.length_cons]; omega
            · exact Nat.min_le_right _ _
            · omega
            · simp only [limitedRead, hn, if_false, hc, streamRead,
                List.cons_ne_nil, List.length_take]
              rw [← List.take_take, List.take_length, drop_min_length]
        have hlen : ((c :: t).drop a).length < fuel := by
          simp only [List.length_drop]; omega
        simp only [discardLoop, ha, ih _ _ hlen, copyDiscard, List.length_drop,
          List.drop_drop]
        have hk : a + min (n - (a : Int)).toNat ((c :: t).length - a) =
            min n.toNat (c :: t).length := by omega
        rw [hk]
        congr 2
        omega

theorem copyDiscard_agrees (s : List Nat) (n : Int) :
    discardLoop (s.length + 1) s n = copyDiscard s n :=
  discardLoop_eq _ s n (Nat.lt_succ_self _)

theorem copyNDiscard_agrees (s : List Nat) (n : Nat) : copyNLoop s n = copyNDiscard s n := by
  unfold copyNLoop copyNDiscard
  rw [copyDiscard_agrees]
  simp only [copyDiscard, Int.toNat_ofNat]
  by_cases h : n ≤ s.length
  · simp [h, Nat.min_eq_left h]
  · have h1 : s.length ≤ n := by omega
    have h2 : ¬ ((n : Int) - ((min n s.length : Nat) : Int) = 0) := by omega
    simp only [h, if_false, Nat.min_eq_right h1, List.drop_length]
    have h3 : ¬ ((n : Int) - ((n : Int) - (s.length : Int)) = (n : Int)) := by omega
    have h4 : (n : Int) - ((n : Int) - (s.length : Int)) < (n : Int) := by omega
    have h5 : s.length ≠ n := by omega
    have h6 : s.length < n := by omega
    simp [h3, h4, h5, h6]

theorem readFull_agrees (s : List Nat) (len : Nat) : readFullLoop s len = readFull s len := by
  unfold readFullLoop readFull
  by_cases h : len ≤ s.length
  · cases len with
    | zero => simp [readAtLeastLoop]
    | succ m =>
      have hne : s ≠ [] := by
        intro h0; rw [h0] at h; simp at h
      have hlt : (List.take (m + 1) s).length = m + 1 := by
        rw [List.length_take]; omega
      simp [readAtLeastLoop, streamRead, hne, h, hlt]
  · cases s with
    | nil =>
      have hpos : 0 < len := by simp at h; omega
      simp [readAtLeastLoop, streamRead, hpos, h]
    | cons c t =>
      obtain ⟨m, rfl⟩ : ∃ m, len = m + 1 := ⟨len - 1, by simp at h; omega⟩
      obtain ⟨j, rfl⟩ : ∃ j, m = j + 1 := ⟨m - 1, by simp at h; omega⟩
      have htake : List.take (j + 1 + 1) (c :: t) = c :: t :=
        List.take_of_length_le (by omega)
      have hdrop : List.drop (j + 1 + 1) (c :: t) = [] :=
        List.drop_of_length_le (by omega)
      have hlen : (c :: t).length < j + 1 + 1 := by omega
      simp only [readAtLeastLoop, List.length_nil, Nat.zero_lt_succ, if_true, streamRead,
        List.cons_ne_nil, if_false, Nat.sub_zero, htake, hdrop, List.nil_append, hlen,
        List.append_nil]
      simp [h]

/-! ## The validation runs once -/

theorem skipUnread_frame (ar : Reader) :
    (skipUnread ar).valid = ar.valid ∧ (skipUnread ar).padded = ar.padded ∧
      (skipUnread ar).dataR = ar.dataR := by
  unfold skipUnread
  simp only [copyDiscard]
  split
  · split <;> exact ⟨rfl, rfl, rfl⟩
  · exact ⟨rfl, rfl, rfl⟩

theorem readInt_frame_fields (a : Reader) (b : List Nat) (base : Nat) :
    (readInt a b base).2.valid = a.valid ∧ (readInt a b base).2.r = a.r ∧
      (readInt a b base).2.padded = a.padded ∧ (readInt a b base).2.dataR = a.dataR ∧
      (readInt a b base).2.dataN = a.dataN := by
  unfold readInt
  cases parseInt (trimSpace b) base <;> exact ⟨rfl, rfl, rfl, rfl, rfl⟩

theorem readHeader_none_frame (a a1 : Reader) (h : readHeader a = (none, a1)) :
    a1.valid = a.valid ∧ a1.padded = a.padded ∧ a1.dataR = a.dataR ∧ a1.dataN = a.dataN ∧
      a1.err ≠ none := by
  unfold readHeader at h
  simp only at h
  split at h
  · simp only [Prod.mk.injEq, true_and] at h
    subst h
    exact ⟨rfl, rfl, rfl, rfl, by simp⟩
  · split at h
    · simp only [Prod.mk.injEq, true_and] at h
      subst h
      exact ⟨rfl, rfl, rfl, rfl, by simp⟩
    · split at h
      · simp only [Prod.mk.injEq, true_and] at h
        subst h
        simp only [modTime]
        refine ⟨?_, ?_, ?_, ?_, by simp⟩
        · simp only [(readInt_frame_fields _ _ _).1]
          split <;> simp only [(readInt_frame_fields _ _ _).1]
        · simp only [(readInt_frame_fields _ _ _).2.2.1]
          split <;> simp only [(readInt_frame_fields _ _ _).2.2.1]
        · simp only [(readInt_frame_fields _ _ _).2.2.2.1]
          split <;> simp only [(readInt_frame_fields _ _ _).2.2.2.1]
        · simp only [(readInt_frame_fields _ _ _).2.2.2.2]
          split <;> simp only [(readInt_frame_fields _ _ _).2.2.2.2]
      · simp at h

theorem headerResult_valid (a : Reader) :
    (headerResult (readHeader a)).2.2.valid = a.valid := by
  cases hrh : readHeader a with
  | mk oh a1 =>
    cases oh with
    | none => exact (readHeader_none_frame a a1 hrh).1
    | some h => exact (readHeader_some a a1 h hrh).2.1

theorem next_valid (ar : Reader) (hv : ar.valid = true) :
    Next ar = nextWithoutValidate ar ∧ (Next ar).2.2.valid = true := by
  have hn : Next ar = nextWithoutValidate ar := by
    rw [next_cases]
    unfold nextWithoutValidate
    simp only
    have ha : (if ar.err = none then skipUnread ar else ar).valid = true := by
      split
      · rw [(skipUnread_frame ar).1, hv]
      · exact hv
    generalize (if ar.err = none then skipUnread ar else ar) = a at ha
    cases he : a.err with
    | some e => rfl
    | none => simp [ha]
  refine ⟨hn, ?_⟩
  rw [hn]
  unfold nextWithoutValidate
  simp only
  have ha : (if ar.err = none then skipUnread ar else ar).valid = true := by
    split
    · rw [(skipUnread_frame ar).1, hv]
    · exact hv
  generalize (if ar.err = none then skipUnread ar else ar) = a at ha
  cases he : a.err with
  | some e => exact ha
  | none =>
    simp only
    rw [headerResult_valid]
    exact ha

theorem read_frame (ar : Reader) (len : Nat) :
    (Read ar len).2.2.valid = ar.valid ∧ (Read ar len).2.2.padded = ar.padded ∧
      (Read ar len).2.2.dataR = ar.dataR ∧ (Read ar len).2.2.err = ar.err := by
  unfold Read
  cases he : ar.err with
  | some e => simp [he]
  | none =>
    simp only
    split
    · simp [he]
    · simp [he]

theorem runOps_valid (ops : List Op) :
    ∀ ar : Reader, ar.valid = true → (runOps ar ops).valid = true := by
  induction ops with
  | nil => intro ar h; exact h
  | cons op ops ih =>
    intro ar h
    simp only [runOps, List.foldl_cons]
    apply ih
    cases op with
    | next => exact (next_valid ar h).2
    | read len => simp only [Op.run]; rw [(read_frame ar len).1]; exact h

theorem next_new_short (s : List Nat) (h : s.length < 8) :
    Next (NewReader s) = (none, some Error.ErrMagic, ⟨[], none, false, false, false, 0⟩) := by
  have hl : ¬ (magic.length ≤ s.length) := by simp [magic]; omega
  simp [Next, NewReader, skipUnread, copyDiscard, validate, copyNDiscard, hl]

theorem next_new_long (s : List Nat) (h : 8 ≤ s.length) :
    Next (NewReader s) =
      headerResult (readHeader ⟨s.drop 8, none, true, false, false, 0⟩) := by
  have hl : magic.length ≤ s.length := by simp [magic]; omega
  have hl2 : ¬ (s.length < 8) := by omega
  rw [next_cases]
  simp [NewReader, skipUnread, copyDiscard, hl2, magic]

/-- C11: for every stream shorter than 8 bytes, the empty one included, the first `Next`
returns `ErrMagic` and no header (not `io.EOF`).  For every stream of at least 8 bytes
the validation consumes exactly 8 bytes (the header block is read from the ninth byte
on), and on every later call, after any sequence of `Next` and `Read` calls, the reader
is marked valid and `Next` does what it does without the validation. -/
theorem C11_validate_once (s : List Nat) (ops : List Op) :
    (s.length < 8 →
      Next (NewReader s) =
        (none, some Error.ErrMagic, ⟨[], none, false, false, false, 0⟩)) ∧
    (8 ≤ s.length →
      Next (NewReader s) =
        headerResult (readHeader ⟨s.drop 8, none, true, false, false, 0⟩) ∧
      (runOps (Next (NewReader s)).2.2 ops).valid = true ∧
      Next (runOps (Next (NewReader s)).2.2 ops) =
        nextWithoutValidate (runOps (Next (NewReader s)).2.2 ops)) := by
  refine ⟨next_new_short s, fun h => ?_⟩
  have h1 := next_new_long s h
  have hv : (Next (NewReader s)).2.2.valid = true := by
    rw [h1, headerResult_valid]
  have hv2 := runOps_valid ops _ hv
  exact ⟨h1, hv2, (next_valid _ hv2).1⟩

set_option maxRecDepth 100000 in
/-- C11 at the empty stream and at the sample archive, with a `Next` and a `Read` in
between. -/
theorem C11_validate_once_witness :
    ([] : List Nat).length < 8 ∧
    Next (NewReader []) = (none, some Error.ErrMagic, ⟨[], none, false, false, false, 0⟩) ∧
    8 ≤ (encodeArchive sampleMembers).length ∧
    (runOps (Next (NewReader (encodeArchive sampleMembers))).2.2
      [Op.read 2, Op.next]).valid = true ∧
    Next (runOps (Next (NewReader (encodeArchive sampleMembers))).2.2 [Op.read 2, Op.next]) =
      nextWithoutValidate
        (runOps (Next (NewReader (encodeArchive sampleMembers))).2.2 [Op.read 2, Op.next]) :=
  ⟨by decide, (C11_validate_once [] []).1 (by decide), by decide,
    ((C11_validate_once (encodeArchive sampleMembers) [Op.read 2, Op.next]).2
      (by decide)).2.1,
    ((C11_validate_once (encodeArchive sampleMembers) [Op.read 2, Op.next]).2
      (by decide)).2.2⟩

/-! ## Reading before the first header, and the remaining count -/

theorem next_none_frame (ar : Reader) (h : (Next ar).1 = none) :
    (Next ar).2.2.dataR = ar.dataR ∧
      (Next ar).2.2.dataN = (if ar.err = none then (skipUnread ar).dataN else ar.dataN) := by
  have hR : (if ar.err = none then skipUnread ar else ar).dataR = ar.dataR := by
    split
    · exact (skipUnread_frame ar).2.2
    · rfl
  have hN : (if ar.err = none then skipUnread ar else ar).dataN =
      (if ar.err = none then (skipUnread ar).dataN else ar.dataN) := by
    split <;> rfl
  rw [← hR, ← hN]
  rw [next_cases] at h ⊢
  simp only at h ⊢
  generalize (if ar.err = none then skipUnread ar else ar) = a at h ⊢
  have key : ∀ b : Reader, b.dataR = a.dataR → b.dataN = a.dataN →
      (headerResult (readHeader b)).1 = none →
      (headerResult (readHeader b)).2.2.dataR = a.dataR ∧
        (headerResult (readHeader b)).2.2.dataN = a.dataN := by
    intro b hb1 hb2 hres
    cases hrh : readHeader b with
    | mk oh b1 =>
      cases oh with
      | some h1 => simp [headerResult, hrh] at hres
      | none =>
        obtain ⟨_, _, f3, f4, _⟩ := readHeader_none_frame b b1 hrh
        exact ⟨by simp only [headerResult]; rw [f3, hb1],
          by simp only [headerResult]; rw [f4, hb2]⟩
  cases he : a.err with
  | some e => simp
  | none =>
    rw [he] at h
    simp only at h ⊢
    split
    · rename_i hv
      simp only [hv, if_true] at h
      exact key a rfl rfl h
    · rename_i hv
      simp only [hv, Bool.false_eq_true, if_false] at h
      split
      · rename_i hl
        simp only [hl, if_true] at h
        exact key _ rfl rfl h
      · exact ⟨rfl, rfl⟩

theorem runOps_no_header (ops : List Op) :
    ∀ ar : Reader, ar.dataR = false → anyHeader ar ops = false →
      (runOps ar ops).dataR = false := by
  induction ops with
  | nil => intro ar h _; exact h
  | cons op ops ih =>
    intro ar h hno
    simp only [anyHeader, Bool.or_eq_false_iff] at hno
    simp only [runOps, List.foldl_cons]
    apply ih _ _ hno.2
    cases op with
    | next =>
      have h1 : (Next ar).1 = none := by
        have := hno.1
        simp only [Op.run] at this
        cases hn : (Next ar).1 with
        | none => rfl
        | some x => rw [hn] at this; simp at this
      simp only [Op.run]
      rw [(next_none_frame ar h1).1, h]
    | read len =>
      simp only [Op.run]
      rw [(read_frame ar len).2.2.1, h]

/-- C12: on a reader created by `NewReader`, after any sequence of calls none of which
returned a header and with no error recorded, `Read` returns 0 bytes and
`os.ErrNotExist` for every buffer length, consumes no byte of the stream and leaves the
reader as it was. -/
theorem C12_read_before_header (s : List Nat) (ops : List Op) (len : Nat)
    (hno : anyHeader (NewReader s) ops = false)
    (herr : (runOps (NewReader s) ops).err = none) :
    Read (runOps (NewReader s) ops) len =
      ([], some Error.ErrNotExist, runOps (NewReader s) ops) := by
  have hd := runOps_no_header ops (NewReader s) rfl hno
  simp [Read, herr, hd]

/-- C12 at a stream of three bytes, after a `Read` and a `Next` that failed with
`ErrMagic`. -/
theorem C12_read_before_header_witness :
    anyHeader (NewReader [1, 2, 3]) [Op.read 4, Op.next] = false ∧
    (runOps (NewReader [1, 2, 3]) [Op.read 4, Op.next]).err = none ∧
    Read (runOps (NewReader [1, 2, 3]) [Op.read 4, Op.next]) 5 =
      ([], some Error.ErrNotExist, runOps (NewReader [1, 2, 3]) [Op.read 4, Op.next]) :=
  ⟨by decide, by decide,
    C12_read_before_header [1, 2, 3] [Op.read 4, Op.next] 5 (by decide) (by decide)⟩

theorem read_dataN (ar : Reader) (len : Nat) :
    (Read ar len).2.2.dataN ≤ ar.dataN ∧
      (ar.dataN ≤ 0 → (Read ar len).2.2.dataN = ar.dataN) := by
  unfold Read
  cases he : ar.err with
  | some e => simp
  | none =>
    simp only
    split
    · simp
    · simp only [limitedRead]
      split
      · simp
      · rename_i hn
        refine ⟨?_, fun h => absurd h hn⟩
        simp only
        omega

theorem skipUnread_dataN (ar : Reader) :
    (skipUnread ar).dataN ≤ ar.dataN ∧ (ar.dataN ≤ 0 → (skipUnread ar).dataN = ar.dataN) := by
  have h : (skipUnread ar).dataN = ar.dataN - ((min ar.dataN.toNat ar.r.length : Nat) : Int) := by
    unfold skipUnread
    simp only [copyDiscard]
    split
    · split <;> rfl
    · rfl
  rw [h]
  constructor
  · omega
  · intro h0
    have : ar.dataN.toNat = 0 := by omega
    simp [this]

theorem run_withinLast (ar : Reader) (last : Option Header) (op : Op)
    (h : withinLast ar last) :
    withinLast (op.run ar).2.2.2
      (match (op.run ar).1 with
        | some h => some h
        | none => last) := by
  cases op with
  | read len =>
    simp only [Op.run]
    cases last with
    | none =>
      simp only [withinLast] at h ⊢
      rw [(read_dataN ar len).2 (by omega), h]
    | some h0 =>
      simp only [withinLast] at h ⊢
      exact le_trans (read_dataN ar len).1 h
  | next =>
    simp only [Op.run]
    cases hn : (Next ar).1 with
    | some h1 =>
      simp only [withinLast]
      have hs := next_some ar (Next ar).2.2 h1 (Next ar).2.1 (by rw [← hn])
      rw [hs.2.2.2.2.1]
    | none =>
      simp only
      have hf := (next_none_frame ar hn).2
      have hle : (Next ar).2.2.dataN ≤ ar.dataN ∧
          (ar.dataN ≤ 0 → (Next ar).2.2.dataN = ar.dataN) := by
        rw [hf]
        split
        · exact skipUnread_dataN ar
        · exact ⟨le_refl _, fun _ => rfl⟩
      cases last with
      | none =>
        simp only [withinLast] at h ⊢
        rw [hle.2 (by omega), h]
      | some h0 =>
        simp only [withinLast] at h ⊢
        exact le_trans hle.1 h

theorem runOps_withinLast (ops : List Op) :
    ∀ (ar : Reader) (last : Option Header), withinLast ar last →
      withinLast (runOps ar ops) (lastHeader ar last ops) := by
  induction ops with
  | nil => intro ar last h; exact h
  | cons op ops ih =>
    intro ar last h
    simp only [runOps, List.foldl_cons, lastHeader]
    exact ih _ _ (run_withinLast ar last op h)

/-- C17: in every state reached from `NewReader` by calls of `Next` and `Read`, the
remaining count `data.N` is at most the `Size` of the most recently returned header (and
0 while none has been returned).  In every reader state, `Read` does not increase it,
the skip inside `Next` does not increase it, a `Next` that returns a header sets it to
the `Size` of that header, and a `Next` that returns none leaves it at the value the
skip left (the value before the call when an error was recorded): a failing `Next`
does not reset it. -/
theorem C17_remaining_invariant (s : List Nat) (ops : List Op) (ar : Reader) (len : Nat) :
    withinLast (runOps (NewReader s) ops) (lastHeader (NewReader s) none ops) ∧
    (Read ar len).2.2.dataN ≤ ar.dataN ∧
    (skipUnread ar).dataN ≤ ar.dataN ∧
    (∀ h, (Next ar).1 = some h → (Next ar).2.2.dataN = h.Size) ∧
    ((Next ar).1 = none →
      (Next ar).2.2.dataN = (if ar.err = none then (skipUnread ar).dataN else ar.dataN) ∧
        (Next ar).2.2.dataN ≤ ar.dataN) := by
  refine ⟨runOps_withinLast ops _ none rfl, (read_dataN ar len).1, (skipUnread_dataN ar).1,
    ?_, ?_⟩
  · intro h hn
    exact (next_some ar (Next ar).2.2 h (Next ar).2.1 (by rw [← hn])).2.2.2.2.1
  · intro hn
    have hf := (next_none_frame ar hn).2
    refine ⟨hf, ?_⟩
    rw [hf]
    split
    · exact (skipUnread_dataN ar).1
    · exact le_refl _

/-! ## The pad flag, truncated content and `FileInfo` -/

theorem tmod_two_eq_one (x : Int) : Int.tmod x 2 = 1 ↔ 0 < x ∧ x % 2 = 1 := by
  cases x with
  | ofNat m =>
    have h : Int.tmod (Int.ofNat m) 2 = ((m % 2 : Nat) : Int) := rfl
    rw [h]
    have h2 : Int.ofNat m = (m : Int) := rfl
    rw [h2]
    omega
  | negSucc m =>
    have h : Int.tmod (Int.negSucc m) 2 = -(((m + 1) % 2 : Nat) : Int) := rfl
    rw [h]
    have hneg : Int.negSucc m < 0 := Int.negSucc_lt_zero m
    omega

set_option maxRecDepth 100000 in
/-- C18, as stated, fails: a header block whose size field reads "-1" is accepted; the
size -1 is odd, yet the reader is left with `padded = false`. -/
theorem C18_padded_counterexample :
    Next (NewReader (magic ++ negativeSizeHeader)) =
      (some ⟨[97], Time.zero, 0, 0, 420, -1⟩, none,
        ⟨[], none, true, false, true, -1⟩) ∧
    (-1 : Int) % 2 = 1 ∧
    (Next (NewReader (magic ++ negativeSizeHeader))).2.2.padded = false := by
  decide

/-- C18, amended: whenever `Next` returns a header `h`, for every reader state, the
state right afterwards has remaining count `data.N = h.Size`, and `padded` is true
exactly when `h.Size` is odd and positive (the code tests `h.Size % 2 == 1` with Go's
truncated remainder); so for every `h.Size ≥ 0`, `padded` is true exactly when `h.Size`
is odd. -/
theorem C18_remaining_and_padded (ar ar1 : Reader) (h : Header) (e : Option Error)
    (hn : Next ar = (some h, e, ar1)) :
    ar1.dataN = h.Size ∧ (ar1.padded = true ↔ (0 < h.Size ∧ h.Size % 2 = 1)) ∧
      (0 ≤ h.Size → (ar1.padded = true ↔ h.Size % 2 = 1)) := by
  obtain ⟨_, _, _, _, hN, hp⟩ := next_some ar ar1 h e hn
  have hiff : ar1.padded = true ↔ (0 < h.Size ∧ h.Size % 2 = 1) := by
    rw [hp, decide_eq_true_eq, tmod_two_eq_one]
  refine ⟨hN, hiff, fun h0 => ?_⟩
  rw [hiff]
  constructor
  · intro hh; exact hh.2
  · intro hh; exact ⟨by omega, hh⟩

set_option maxRecDepth 100000 in
/-- C18 (amended) at the first header of the sample archive followed by the member of
odd size. -/
theorem C18_remaining_and_padded_witness :
    Next (NewReader (encodeArchive [memberOdd])) =
      (some memberOdd.header, none, ⟨[97, 98, 99, 10], none, true, true, true, 3⟩) ∧
    (⟨[97, 98, 99, 10], none, true, true, true, 3⟩ : Reader).dataN = memberOdd.header.Size ∧
    ((⟨[97, 98, 99, 10], none, true, true, true, 3⟩ : Reader).padded = true ↔
      (0 < memberOdd.header.Size ∧ memberOdd.header.Size % 2 = 1)) :=
  ⟨by decide,
    (C18_remaining_and_padded (NewReader (encodeArchive [memberOdd]))
      ⟨[97, 98, 99, 10], none, true, true, true, 3⟩ memberOdd.header none (by decide)).1,
    (C18_remaining_and_padded (NewReader (encodeArchive [memberOdd]))
      ⟨[97, 98, 99, 10], none, true, true, true, 3⟩ memberOdd.header none (by decide)).2.1⟩

theorem read_short (r : List Nat) (valid padded : Bool) (n : Int) (len : Nat)
    (h : (r.length : Int) < n) :
    ∃ (r1 : List Nat) (n1 : Int), (r1.length : Int) < n1 ∧
      (Read ⟨r, none, valid, padded, true, n⟩ len).2.2 = ⟨r1, none, valid, padded, true, n1⟩ := by
  have hn : ¬ (n ≤ 0) := by omega
  cases r with
  | nil =>
    exact ⟨[], n, h, by simp [Read, limitedRead, hn, streamRead]⟩
  | cons c t =>
    simp only [Read, Bool.not_true, Bool.false_eq_true, if_false, limitedRead, hn,
      streamRead, List.cons_ne_nil]
    refine ⟨_, _, ?_, rfl⟩
    simp only [List.length_drop, List.length_take]
    split <;> omega

theorem readMany_short (valid padded : Bool) (lens : List Nat) :
    ∀ (r : List Nat) (n : Int), (r.length : Int) < n →
      ∃ (r1 : List Nat) (n1 : Int), (r1.length : Int) < n1 ∧
        readMany ⟨r, none, valid, padded, true, n⟩ lens =
          ⟨r1, none, valid, padded, true, n1⟩ := by
  induction lens with
  | nil => intro r n h; exact ⟨r, n, h, rfl⟩
  | cons len lens ih =>
    intro r n h
    obtain ⟨r1, n1, h1, hr⟩ := read_short r valid padded n len h
    obtain ⟨r2, n2, h2, hr2⟩ := ih r1 n1 h1
    refine ⟨r2, n2, h2, ?_⟩
    simp only [readMany, List.foldl_cons] at hr2 ⊢
    rw [hr, hr2]

theorem next_short (r : List Nat) (padded : Bool) (n : Int) (h : (r.length : Int) < n) :
    (Next ⟨r, none, true, padded, true, n⟩).1 = none ∧
      (Next ⟨r, none, true, padded, true, n⟩).2.1 =
        some (if padded then Error.ErrHeader else Error.EOF) := by
  have hk : min n.toNat r.length = r.length := by omega
  rw [next_cases]
  cases padded with
  | false =>
    simp [skipUnread, copyDiscard, hk, readHeader, readFull, blockSize, headerResult]
  | true =>
    simp [skipUnread, copyDiscard, hk, streamRead]

/-- C20: let `Next` have returned a header `h` and let the stream end before all `h.Size`
content bytes have been supplied.  After any sequence of `Read` calls, the next `Next`
returns `io.EOF` and no header when `h.Size` is even, which is what a clean end of the
archive gives, and `ErrHeader` (from the check of the pad byte) when `h.Size` is odd. -/
theorem C20_truncated_content (ar0 ar1 : Reader) (h : Header) (lens : List Nat)
    (hnext : Next ar0 = (some h, none, ar1)) (hshort : (ar1.r.length : Int) < h.Size) :
    (Next (readMany ar1 lens)).1 = none ∧
    (h.Size % 2 = 0 → (Next (readMany ar1 lens)).2.1 = some Error.EOF) ∧
    (h.Size % 2 = 1 → (Next (readMany ar1 lens)).2.1 = some Error.ErrHeader) := by
  obtain ⟨_, h1, h2, h3, h4, h5⟩ := next_some ar0 ar1 h none hnext
  obtain ⟨r, err, valid, padded, dataR, dataN⟩ := ar1
  simp only at hshort h1 h2 h3 h4 h5
  subst h1 h2 h3 h4
  obtain ⟨r1, n1, hlt, hrm⟩ := readMany_short true padded lens r h.Size hshort
  rw [hrm]
  obtain ⟨hnone, herr⟩ := next_short r1 padded n1 hlt
  have hiff : padded = true ↔ (0 < h.Size ∧ h.Size % 2 = 1) := by
    rw [h5, decide_eq_true_eq, tmod_two_eq_one]
  refine ⟨hnone, fun heven => ?_, fun hodd => ?_⟩
  · have hp : padded = false := by
      cases hp : padded with
      | false => rfl
      | true => have := hiff.1 hp; omega
    rw [herr, hp]; rfl
  · have hp : padded = true := hiff.2 ⟨by omega, hodd⟩
    rw [herr, hp]; rfl

set_option maxRecDepth 100000 in
/-- C20 at the header of the sample member "debian-binary" (four bytes) followed by only
two content bytes. -/
theorem C20_truncated_content_witness :
    Next (NewReader (magic ++ encodeHeader memberDebianBinary ++ [50, 46])) =
      (some memberDebianBinary.header, none, ⟨[50, 46], none, true, false, true, 4⟩) ∧
    (((⟨[50, 46], none, true, false, true, 4⟩ : Reader).r.length : Int) <
      memberDebianBinary.header.Size) ∧
    memberDebianBinary.header.Size % 2 = 0 ∧
    (Next (readMany ⟨[50, 46], none, true, false, true, 4⟩ [1])).1 = none ∧
    (Next (readMany ⟨[50, 46], none, true, false, true, 4⟩ [1])).2.1 = some Error.EOF :=
  ⟨by decide, by decide, by decide,
    (C20_truncated_content (NewReader (magic ++ encodeHeader memberDebianBinary ++ [50, 46]))
      ⟨[50, 46], none, true, false, true, 4⟩ memberDebianBinary.header [1]
      (by decide) (by decide)).1,
    (C20_truncated_content (NewReader (magic ++ encodeHeader memberDebianBinary ++ [50, 46]))
      ⟨[50, 46], none, true, false, true, 4⟩ memberDebianBinary.header [1]
      (by decide) (by decide)).2.1 (by decide)⟩

theorem and_modePerm (n : Nat) : n &&& ModePerm = n % 512 := by
  have h : ModePerm = 2 ^ 9 - 1 := by decide
  rw [h, Nat.and_pow_two_sub_one_eq_mod]

/-- C16: for every header `h`, the `os.FileInfo` returned by `h.FileInfo()` reports
`Name() = h.Name`, `Size() = h.Size`, `ModTime() = h.ModTime`,
`Mode() = os.FileMode(h.Mode).Perm()`, which is the number made of the low nine bits of
`h.Mode` (the file-type bits are dropped: 0100644 gives 0644), and `IsDir() = false`. -/
theorem C16_file_info (h : Header) :
    h.FileInfo.Name = h.Name ∧ h.FileInfo.Size = h.Size ∧ h.FileInfo.ModTime = h.ModTime ∧
    h.FileInfo.Mode = Perm (FileMode h.Mode) ∧
    (h.FileInfo.Mode : Int) = h.Mode % 512 ∧ h.FileInfo.Mode < 512 ∧
    h.FileInfo.IsDir = false ∧
    memberDebianBinary.header.Mode = 0o100644 ∧
    memberDebianBinary.header.FileInfo.Mode = 0o644 := by
  have hmode : (h.FileInfo.Mode : Int) = h.Mode % 512 := by
    simp only [headerFileInfo.Mode, Header.FileInfo, Perm, FileMode, and_modePerm]
    have h0 : 0 ≤ h.Mode % 2 ^ 32 := Int.emod_nonneg _ (by norm_num)
    rw [Int.natCast_mod, Int.toNat_of_nonneg h0]
    omega
  refine ⟨rfl, rfl, rfl, rfl, hmode, ?_, rfl, by decide, by decide⟩
  have : h.Mode % 512 < 512 := Int.emod_lt_of_pos _ (by norm_num)
  omega

end Ar

namespace Deb

open Ar

/-! ## Package `strings` and the field separator -/

theorem startsWith_iff : ∀ (s p : List Nat), startsWith s p = true ↔ p <+: s
  | _, [] => by simp [startsWith]
  | [], _ :: _ => by simp [startsWith]
  | c :: s, d :: p => by
    simp only [startsWith, Bool.and_eq_true, beq_iff_eq, List.cons_prefix_cons,
      startsWith_iff s p]
    constructor
    · rintro ⟨h1, h2⟩; exact ⟨h1.symm, h2⟩
    · rintro ⟨h1, h2⟩; exact ⟨h1.symm, h2⟩

theorem stringsIndex_none_iff (sep : List Nat) :
    ∀ s : List Nat, stringsIndex sep s = none ↔ ¬ sep <:+: s := by
  intro s
  induction s with
  | nil =>
    simp only [stringsIndex, List.infix_nil]
    split <;> simp_all
  | cons c s ih =>
    simp only [stringsIndex, List.infix_cons_iff]
    by_cases h : startsWith (c :: s) sep = true
    · simp [h, (startsWith_iff _ _).1 h]
    · have h2 : ¬ sep <+: c :: s := fun hp => h ((startsWith_iff _ _).2 hp)
      simp only [h, Bool.false_eq_true, if_false, Option.map_eq_none', ih, h2, false_or]

theorem stringsIndex_some (sep : List Nat) :
    ∀ (s : List Nat) (i : Nat), stringsIndex sep s = some i →
      s = s.take i ++ sep ++ s.drop (i + sep.length) ∧
        ∀ j, j < i → ¬ sep <+: s.drop j := by
  intro s
  induction s with
  | nil =>
    intro i h
    simp only [stringsIndex] at h
    split at h
    · rename_i hs
      simp only [Option.some.injEq] at h
      subst h hs
      simp
    · simp at h
  | cons c s ih =>
    intro i h
    simp only [stringsIndex] at h
    by_cases hp : startsWith (c :: s) sep = true
    · simp only [hp, if_true, Option.some.injEq] at h
      subst h
      obtain ⟨t, ht⟩ := (startsWith_iff _ _).1 hp
      refine ⟨?_, fun j hj => absurd hj (Nat.not_lt_zero _)⟩
      simp only [List.take_zero, List.nil_append, Nat.zero_add]
      rw [← ht, List.drop_left]
    · simp only [hp, Bool.false_eq_true, if_false, Option.map_eq_some'] at h
      obtain ⟨k, hk, rfl⟩ := h
      obtain ⟨h1, h2⟩ := ih k hk
      constructor
      · simp only [List.take_succ_cons, List.cons_append, Nat.add_right_comm k 1,
          List.drop_succ_cons]
        rw [← h1]
      · intro j hj
        cases j with
        | zero =>
          intro hpre
          exact hp ((startsWith_iff _ _).2 (by simpa using hpre))
        | succ j =>
          simp only [List.drop_succ_cons]
          exact h2 j (by omega)

theorem splitN_two (t : List Nat) (ht : t ≠ []) :
    stringsSplitN t fieldSep 2 =
      match stringsIndex fieldSep t with
      | none => [t]
      | some m => [t.take m, t.drop (m + fieldSep.length)] := by
  have hl : 0 < t.length := List.length_pos.2 ht
  have hmin : min 2 (t.length + 1) - 1 = 1 := by omega
  unfold stringsSplitN
  rw [hmin]
  cases h : stringsIndex fieldSep t <;> simp [genSplitLoop, h]

theorem getD_eq_iff_head (line : List Nat) (b : Nat) (hb : b ≠ 0) :
    line.getD 0 0 = b ↔ line.head? = some b := by
  cases line with
  | nil => simp; exact fun h => hb h.symm
  | cons c rest => simp

theorem parseLoop_blank (line : List Nat) (rest : List (List Nat)) (prev : List Nat)
    (f : Fields) (h : trimSpace line = []) :
    parseLoop (line :: rest) prev f = parseLoop rest prev f := by
  simp [parseLoop, h]

theorem parseLoop_continuation (line : List Nat) (rest : List (List Nat)) (prev : List Nat)
    (f : Fields) (h : isContinuation line = true) :
    parseLoop (line :: rest) prev f =
      parseLoop rest prev (mapSet f prev (mapGet f prev ++ ([10] ++ line.drop 1))) := by
  simp only [isContinuation, Bool.and_eq_true, decide_eq_true_eq, Bool.or_eq_true,
    beq_iff_eq] at h
  have hc : line.getD 0 0 = 32 ∨ line.getD 0 0 = 9 := by
    rcases h.2 with h1 | h1
    · exact Or.inl ((getD_eq_iff_head line 32 (by decide)).2 h1)
    · exact Or.inr ((getD_eq_iff_head line 9 (by decide)).2 h1)
  simp only [parseLoop, h.1, if_false, hc, if_true]

theorem isKeyLine_iff (line : List Nat) :
    isKeyLine line = true ↔
      trimSpace line ≠ [] ∧ line.head? ≠ some 32 ∧ line.head? ≠ some 9 := by
  simp [isKeyLine, and_assoc]

theorem parseLoop_key (line : List Nat) (rest : List (List Nat)) (prev : List Nat)
    (f : Fields) (h : isKeyLine line = true) :
    parseLoop (line :: rest) prev f =
      if fieldSep <:+: trimSpace line then
        parseLoop rest (fieldKey line) (mapSet f (fieldKey line) (fieldValue line))
      else (some Error.ErrField, prev, f) := by
  obtain ⟨h1, h2, h3⟩ := (isKeyLine_iff line).1 h
  have hc : ¬ (line.getD 0 0 = 32 ∨ line.getD 0 0 = 9) := by
    rintro (hh | hh)
    · exact h2 ((getD_eq_iff_head line 32 (by decide)).1 hh)
    · exact h3 ((getD_eq_iff_head line 9 (by decide)).1 hh)
  simp only [parseLoop, h1, if_false, hc, splitN_two _ h1, fieldKey, fieldValue]
  cases hi : stringsIndex fieldSep (trimSpace line) with
  | none =>
    have := (stringsIndex_none_iff fieldSep _).1 hi
    simp [this]
  | some m =>
    have hin : fieldSep <:+: trimSpace line := by
      by_contra hn
      rw [(stringsIndex_none_iff fieldSep _).2 hn] at hi
      simp at hi
    simp [hin]

theorem line_cases (line : List Nat) :
    trimSpace line = [] ∨ isContinuation line = true ∨ isKeyLine line = true := by
  by_cases h : trimSpace line = []
  · exact Or.inl h
  · by_cases h2 : line.head? = some 32 ∨ line.head? = some 9
    · right; left
      simp only [isContinuation, Bool.and_eq_true, decide_eq_true_eq, Bool.or_eq_true,
        beq_iff_eq]
      exact ⟨h, h2⟩
    · right; right
      rw [isKeyLine_iff]
      exact ⟨h, fun hh => h2 (Or.inl hh), fun hh => h2 (Or.inr hh)⟩

/-! ## Rejected field lines -/

theorem isKeyLine_of_blank (line : List Nat) (h : trimSpace line = []) :
    isKeyLine line = false := by
  simp [isKeyLine, h]

theorem isKeyLine_of_continuation (line : List Nat) (h : isContinuation line = true) :
    isKeyLine line = false := by
  simp only [isContinuation, Bool.and_eq_true, decide_eq_true_eq, Bool.or_eq_true,
    beq_iff_eq] at h
  rcases h.2 with h1 | h1 <;> simp [isKeyLine, h1]

theorem parseLoop_error_iff :
    ∀ (lines : List (List Nat)) (prev : List Nat) (f : Fields),
      ((parseLoop lines prev f).1 = some Error.ErrField ↔
        ∃ line ∈ lines, isKeyLine line = true ∧ ¬ fieldSep <:+: trimSpace line) ∧
      ((parseLoop lines prev f).1 = none ∨
        (parseLoop lines prev f).1 = some Error.ErrField) := by
  intro lines
  induction lines with
  | nil => intro prev f; simp [parseLoop]
  | cons line rest ih =>
    intro prev f
    rcases line_cases line with hb | hc | hk
    · rw [parseLoop_blank line rest prev f hb]
      have hk := isKeyLine_of_blank line hb
      simp only [List.mem_cons, exists_eq_or_imp, hk, Bool.false_eq_true, false_and,
        false_or]
      exact ih prev f
    · rw [parseLoop_continuation line rest prev f hc]
      have hk := isKeyLine_of_continuation line hc
      simp only [List.mem_cons, exists_eq_or_imp, hk, Bool.false_eq_true, false_and,
        false_or]
      exact ih prev _
    · rw [parseLoop_key line rest prev f hk]
      by_cases hin : fieldSep <:+: trimSpace line
      · simp only [hin, if_true, List.mem_cons, exists_eq_or_imp, not_true_eq_false,
          and_false, false_or]
        exact ih _ _
      · simp only [hin, if_false, List.mem_cons, exists_eq_or_imp, hk, not_false_eq_true,
          and_self, true_or, or_true, and_true]

/-- C19: `parseFields` returns `ErrField` if and only if the control data contains a
line that is not empty after trimming white space, does not begin with a space or a tab,
and whose trimmed text does not contain the separator ": "; in every other case it
returns nil.  So "Key:" and "Key:value" are rejected, and a control text whose first
line is a continuation line is accepted. -/
theorem C19_field_error_iff (p : Package) :
    ((parseFields p).1 = some Error.ErrField ↔
      ∃ line ∈ stringsSplit p.ControlData [10],
        trimSpace line ≠ [] ∧ line.head? ≠ some 32 ∧ line.head? ≠ some 9 ∧
          ¬ fieldSep <:+: trimSpace line) ∧
    ((parseFields p).1 ≠ some Error.ErrField → (parseFields p).1 = none) ∧
    (parseFields (packageOf controlKeyColon)).1 = some Error.ErrField ∧
    (parseFields (packageOf controlNoSpace)).1 = some Error.ErrField ∧
    (parseFields (packageOf controlContinuationFirst)).1 = none := by
  have h := parseLoop_error_iff (stringsSplit p.ControlData [10]) [] p.Fields
  have hp : (parseFields p).1 = (parseLoop (stringsSplit p.ControlData [10]) [] p.Fields).1 :=
    rfl
  rw [hp]
  refine ⟨?_, ?_, by decide, by decide, by decide⟩
  · rw [h.1]
    constructor
    · rintro ⟨line, hm, hk, hn⟩
      obtain ⟨h1, h2, h3⟩ := (isKeyLine_iff line).1 hk
      exact ⟨line, hm, h1, h2, h3, hn⟩
    · rintro ⟨line, hm, h1, h2, h3, hn⟩
      exact ⟨line, hm, (isKeyLine_iff line).2 ⟨h1, h2, h3⟩, hn⟩
  · intro hne
    rcases h.2 with h0 | h0
    · exact h0
    · exact absurd h0 hne

/-! ## Key lines -/

theorem mapSet_same (f : Fields) (k v : List Nat) : mapSet f k v k = some v := by
  simp [mapSet]

theorem mapSet_other (f : Fields) (k v key : List Nat) (h : key ≠ k) :
    mapSet f k v key = f key := by
  simp [mapSet, h]

theorem parseLoop_key_lines :
    ∀ (lines : List (List Nat)) (prev : List Nat) (f : Fields),
      (∀ line ∈ lines, trimSpace line ≠ [] →
        isKeyLine line = true ∧ fieldSep <:+: trimSpace line) →
      (parseLoop lines prev f).1 = none ∧
      (∀ k, (∀ l ∈ lines, trimSpace l ≠ [] → fieldKey l ≠ k) →
        (parseLoop lines prev f).2.2 k = f k) ∧
      (∀ front line back, lines = front ++ line :: back → trimSpace line ≠ [] →
        (∀ l ∈ back, trimSpace l ≠ [] → fieldKey l ≠ fieldKey line) →
        (parseLoop lines prev f).2.2 (fieldKey line) = some (fieldValue line)) := by
  intro lines
  induction lines with
  | nil =>
    intro prev f _
    refine ⟨rfl, fun k _ => rfl, ?_⟩
    intro front line back h
    simp at h
  | cons l ls ih =>
    intro prev f hform
    have hform' : ∀ line ∈ ls, trimSpace line ≠ [] →
        isKeyLine line = true ∧ fieldSep <:+: trimSpace line :=
      fun x hx => hform x (List.mem_cons_of_mem _ hx)
    by_cases hb : trimSpace l = []
    · rw [parseLoop_blank l ls prev f hb]
      obtain ⟨h1, h2, h3⟩ := ih prev f hform'
      refine ⟨h1, fun k hk => h2 k (fun x hx => hk x (List.mem_cons_of_mem _ hx)), ?_⟩
      intro front line back hsplit hnb hback
      cases front with
      | nil =>
        simp only [List.nil_append, List.cons.injEq] at hsplit
        exact absurd (hsplit.1 ▸ hb) hnb
      | cons x front =>
        simp only [List.cons_append, List.cons.injEq] at hsplit
        exact h3 front line back hsplit.2 hnb hback
    · obtain ⟨hk, hin⟩ := hform l (List.mem_cons_self _ _) hb
      rw [parseLoop_key l ls prev f hk]
      simp only [hin, if_true]
      obtain ⟨h1, h2, h3⟩ := ih (fieldKey l) (mapSet f (fieldKey l) (fieldValue l)) hform'
      refine ⟨h1, ?_, ?_⟩
      · intro k hkeys
        rw [h2 k (fun x hx => hkeys x (List.mem_cons_of_mem _ hx))]
        exact mapSet_other _ _ _ _ (fun h => hkeys l (List.mem_cons_self _ _) hb h.symm)
      · intro front line back hsplit hnb hback
        cases front with
        | nil =>
          simp only [List.nil_append, List.cons.injEq] at hsplit
          obtain ⟨hl, hls⟩ := hsplit
          subst hl hls
          rw [h2 (fieldKey l) hback]
          exact mapSet_same _ _ _
        | cons x front =>
          simp only [List.cons_append, List.cons.injEq] at hsplit
          exact h3 front line back hsplit.2 hnb hback

/-- C13, as stated, fails: the only line of the control text "Key: " does not begin with
a space or a tab and contains ": ", yet `parseFields` returns `ErrField`, because the
separator is looked for in the trimmed line "Key:". -/
theorem C13_empty_value_counterexample :
    (∀ line ∈ stringsSplit controlEmptyValue [10], trimSpace line ≠ [] →
      line.head? ≠ some 32 ∧ line.head? ≠ some 9 ∧ fieldSep <:+: line) ∧
    (parseFields (packageOf controlEmptyValue)).1 = some Error.ErrField := by
  decide

/-- C13, amended: for every control text whose non-blank lines each do not begin with a
space or a tab and contain ": " in their trimmed text, `parseFields` returns nil, and
afterwards `Fields` maps the key of each such line (the text before the first ": " of the
trimmed line) to the text after that first ": ", the last line winning for a repeated
key, and holds every other key as before; nothing else in the package changes.  For
"Package: empty\nVersion: 1.0.0\n" and an empty map the result is the map of exactly
Package=empty and Version=1.0.0. -/
theorem C13_key_value_lines (p : Package)
    (hform : ∀ line ∈ stringsSplit p.ControlData [10], trimSpace line ≠ [] →
      line.head? ≠ some 32 ∧ line.head? ≠ some 9 ∧ fieldSep <:+: trimSpace line) :
    (parseFields p).1 = none ∧
    (∀ front line back, stringsSplit p.ControlData [10] = front ++ line :: back →
      trimSpace line ≠ [] →
      (∀ l ∈ back, trimSpace l ≠ [] → fieldKey l ≠ fieldKey line) →
      (parseFields p).2.Fields (fieldKey line) = some (fieldValue line)) ∧
    (∀ k, (∀ l ∈ stringsSplit p.ControlData [10], trimSpace l ≠ [] → fieldKey l ≠ k) →
      (parseFields p).2.Fields k = p.Fields k) ∧
    (parseFields p).2 = { p with Fields := (parseFields p).2.Fields } ∧
    (parseFields (packageOf controlSample)).2.Fields =
      mapSet (mapSet emptyFields keyPackage valueEmpty) keyVersion valueVersion := by
  have hform' : ∀ line ∈ stringsSplit p.ControlData [10], trimSpace line ≠ [] →
      isKeyLine line = true ∧ fieldSep <:+: trimSpace line := by
    intro line hm hnb
    obtain ⟨h1, h2, h3⟩ := hform line hm hnb
    exact ⟨(isKeyLine_iff line).2 ⟨hnb, h1, h2⟩, h3⟩
  obtain ⟨h1, h2, h3⟩ :=
    parseLoop_key_lines (stringsSplit p.ControlData [10]) [] p.Fields hform'
  exact ⟨h1, h3, h2, rfl, by rfl⟩

set_option maxRecDepth 100000 in
/-- C13 (amended) at the control text "Package: empty\nVersion: 1.0.0\n". -/
theorem C13_key_value_lines_witness :
    (∀ line ∈ stringsSplit (packageOf controlSample).ControlData [10], trimSpace line ≠ [] →
      line.head? ≠ some 32 ∧ line.head? ≠ some 9 ∧ fieldSep <:+: trimSpace line) ∧
    (parseFields (packageOf controlSample)).1 = none ∧
    stringsSplit (packageOf controlSample).ControlData [10] =
      [] ++ (keyPackage ++ fieldSep ++ valueEmpty) ::
        [keyVersion ++ fieldSep ++ valueVersion, []] ∧
    fieldKey (keyPackage ++ fieldSep ++ valueEmpty) = keyPackage ∧
    fieldValue (keyPackage ++ fieldSep ++ valueEmpty) = valueEmpty ∧
    (parseFields (packageOf controlSample)).2.Fields
        (fieldKey (keyPackage ++ fieldSep ++ valueEmpty)) =
      some (fieldValue (keyPackage ++ fieldSep ++ valueEmpty)) :=
  ⟨by decide, (C13_key_value_lines (packageOf controlSample) (by decide)).1, by decide,
    by decide, by decide,
    (C13_key_value_lines (packageOf controlSample) (by decide)).2.1 []
      (keyPackage ++ fieldSep ++ valueEmpty) [keyVersion ++ fieldSep ++ valueVersion, []]
      (by decide) (by decide) (by decide)⟩

/-! ## Continuation lines -/

theorem parseLoop_append :
    ∀ (front rest : List (List Nat)) (prev : List Nat) (f : Fields),
      (parseLoop front prev f).1 = none →
      parseLoop (front ++ rest) prev f =
        parseLoop rest (parseLoop front prev f).2.1 (parseLoop front prev f).2.2 := by
  intro front
  induction front with
  | nil => intro rest prev f _; rfl
  | cons l ls ih =>
    intro rest prev f hok
    rcases line_cases l with hb | hc | hk
    · rw [List.cons_append, parseLoop_blank l _ prev f hb]
      rw [parseLoop_blank l ls prev f hb] at hok ⊢
      exact ih rest prev f hok
    · rw [List.cons_append, parseLoop_continuation l _ prev f hc]
      rw [parseLoop_continuation l ls prev f hc] at hok ⊢
      exact ih rest prev _ hok
    · rw [List.cons_append, parseLoop_key l _ prev f hk]
      rw [parseLoop_key l ls prev f hk] at hok ⊢
      by_cases hin : fieldSep <:+: trimSpace l
      · simp only [hin, if_true] at hok ⊢
        exact ih rest _ _ hok
      · simp [hin] at hok

theorem parseLoop_prev :
    ∀ (lines : List (List Nat)) (prev : List Nat) (f : Fields),
      (parseLoop lines prev f).1 = none →
      (parseLoop lines prev f).2.1 = if lines.any isKeyLine then lastKey lines else prev := by
  intro lines
  induction lines with
  | nil => intro prev f _; rfl
  | cons l ls ih =>
    intro prev f hok
    rcases line_cases l with hb | hc | hk
    · rw [parseLoop_blank l ls prev f hb] at hok ⊢
      rw [ih prev f hok]
      simp only [List.any_cons, isKeyLine_of_blank l hb, Bool.false_or, lastKey]
      split <;> simp_all
    · rw [parseLoop_continuation l ls prev f hc] at hok ⊢
      rw [ih prev _ hok]
      simp only [List.any_cons, isKeyLine_of_continuation l hc, Bool.false_or, lastKey]
      split <;> simp_all
    · rw [parseLoop_key l ls prev f hk] at hok ⊢
      by_cases hin : fieldSep <:+: trimSpace l
      · simp only [hin, if_true] at hok ⊢
        rw [ih _ _ hok]
        simp only [List.any_cons, hk, Bool.true_or, if_true, lastKey]
      · simp [hin] at hok

theorem lastKey_of_no_key (lines : List (List Nat)) (h : lines.any isKeyLine = false) :
    lastKey lines = [] := by
  cases lines with
  | nil => rfl
  | cons l ls =>
    simp only [List.any_cons, Bool.or_eq_false_iff] at h
    simp [lastKey, h.1, h.2]

/-- C14: a line of the control data that is not blank after trimming and begins with a
space or a tab is a continuation line.  When the loop of `parseFields` comes to it (no
line before it was rejected), it sets the value of the key `K` of the most recent key
line before it (the empty key when there is none) to that value followed by a newline
and the line without its first character, leaves every other key as it was, and goes on
with the lines after it and the same `K`.  So "K: v" followed by the lines " c1" and
"\tc2" yields `Fields[K] = "v\nc1\nc2"`. -/
theorem C14_continuation_line (p : Package) (front back : List (List Nat))
    (line : List Nat) (hlines : stringsSplit p.ControlData [10] = front ++ line :: back)
    (hnb : trimSpace line ≠ [])
    (hbegin : line.head? = some 32 ∨ line.head? = some 9)
    (hok : (parseLoop front [] p.Fields).1 = none) :
    (parseFields p).1 =
      (parseLoop back (lastKey front)
        (mapSet (parseLoop front [] p.Fields).2.2 (lastKey front)
          (mapGet (parseLoop front [] p.Fields).2.2 (lastKey front) ++
            ([10] ++ line.drop 1)))).1 ∧
    (parseFields p).2.Fields =
      (parseLoop back (lastKey front)
        (mapSet (parseLoop front [] p.Fields).2.2 (lastKey front)
          (mapGet (parseLoop front [] p.Fields).2.2 (lastKey front) ++
            ([10] ++ line.drop 1)))).2.2 ∧
    mapSet (parseLoop front [] p.Fields).2.2 (lastKey front)
        (mapGet (parseLoop front [] p.Fields).2.2 (lastKey front) ++ ([10] ++ line.drop 1))
        (lastKey front) =
      some (mapGet (parseLoop front [] p.Fields).2.2 (lastKey front) ++
        ([10] ++ line.drop 1)) ∧
    (∀ k, k ≠ lastKey front →
      mapSet (parseLoop front [] p.Fields).2.2 (lastKey front)
          (mapGet (parseLoop front [] p.Fields).2.2 (lastKey front) ++
            ([10] ++ line.drop 1)) k =
        (parseLoop front [] p.Fields).2.2 k) ∧
    (parseFields (packageOf controlContinued)).1 = none ∧
    (parseFields (packageOf controlContinued)).2.Fields [75] =
      some [118, 10, 99, 49, 10, 99, 50] := by
  have hc : isContinuation line = true := by
    simp only [isContinuation, Bool.and_eq_true, decide_eq_true_eq, Bool.or_eq_true,
      beq_iff_eq]
    exact ⟨hnb, hbegin⟩
  have hprev : (parseLoop front [] p.Fields).2.1 = lastKey front := by
    rw [parseLoop_prev front [] p.Fields hok]
    split
    · rfl
    · rename_i h
      exact (lastKey_of_no_key front (by simpa using h)).symm
  have hloop : parseLoop (stringsSplit p.ControlData [10]) [] p.Fields =
      parseLoop back (lastKey front)
        (mapSet (parseLoop front [] p.Fields).2.2 (lastKey front)
          (mapGet (parseLoop front [] p.Fields).2.2 (lastKey front) ++
            ([10] ++ line.drop 1))) := by
    rw [hlines, parseLoop_append front (line :: back) [] p.Fields hok,
      parseLoop_continuation _ _ _ _ hc, hprev]
  have h1 : (parseFields p).1 = (parseLoop (stringsSplit p.ControlData [10]) [] p.Fields).1 :=
    rfl
  have h2 : (parseFields p).2.Fields =
      (parseLoop (stringsSplit p.ControlData [10]) [] p.Fields).2.2 := rfl
  rw [h1, h2, hloop]
  exact ⟨rfl, rfl, mapSet_same _ _ _, fun k hk => mapSet_other _ _ _ _ hk, by decide,
    by decide⟩

set_option maxRecDepth 100000 in
/-- C14 at the control text "K: v\n c1\n\tc2": the line "\tc2" after "K: v" and " c1". -/
theorem C14_continuation_line_witness :
    stringsSplit (packageOf controlContinued).ControlData [10] =
      [[75, 58, 32, 118], [32, 99, 49]] ++ [9, 99, 50] :: [] ∧
    trimSpace [9, 99, 50] ≠ [] ∧
    (([9, 99, 50] : List Nat).head? = some 32 ∨ ([9, 99, 50] : List Nat).head? = some 9) ∧
    (parseLoop [[75, 58, 32, 118], [32, 99, 49]] [] (packageOf controlContinued).Fields).1 =
      none ∧
    lastKey [[75, 58, 32, 118], [32, 99, 49]] = [75] ∧
    mapGet (parseLoop [[75, 58, 32, 118], [32, 99, 49]] []
      (packageOf controlContinued).Fields).2.2 [75] = [118, 10, 99, 49] ∧
    mapSet (parseLoop [[75, 58, 32, 118], [32, 99, 49]] []
        (packageOf controlContinued).Fields).2.2 (lastKey [[75, 58, 32, 118], [32, 99, 49]])
        (mapGet (parseLoop [[75, 58, 32, 118], [32, 99, 49]] []
          (packageOf controlContinued).Fields).2.2
          (lastKey [[75, 58, 32, 118], [32, 99, 49]]) ++ ([10] ++ [9, 99, 50].drop 1))
        (lastKey [[75, 58, 32, 118], [32, 99, 49]]) =
      some (mapGet (parseLoop [[75, 58, 32, 118], [32, 99, 49]] []
        (packageOf controlContinued).Fields).2.2
        (lastKey [[75, 58, 32, 118], [32, 99, 49]]) ++ ([10] ++ [9, 99, 50].drop 1)) :=
  ⟨by decide, by decide, by decide, by decide, by decide, by decide,
    (C14_continuation_line (packageOf controlContinued) [[75, 58, 32, 118], [32, 99, 49]] []
      [9, 99, 50] (by decide) (by decide) (by decide) (by decide)).2.2.1⟩

/-! ## The error of `readData` -/

set_option maxRecDepth 100000 in
/-- C15: the code at a file that is an archive of one member "data.tar.gz" whose gzip
stream opens and whose tar reader fails after one entry.  `readData` returns the error
of the tar collaborator, yet `NewPackage` returns a nil error and a package (holding the
entry read before the failure): the error is assigned to the `err` declared inside the
case clause and never tested.  With the same member named "control.tar.gz",
`NewPackage` returns the error. -/
theorem C15_read_data_error_dropped :
    (readData (packageOf []) brokenTar).1 = some (Error.external 1) ∧
    (NewPackage (brokenCollaborators nameDataTarGz) 2 []).isSome = true ∧
    resultError (NewPackage (brokenCollaborators nameDataTarGz) 2 []) = none ∧
    resultFiles (NewPackage (brokenCollaborators nameDataTarGz) 2 []) = some [[46, 47, 97]] ∧
    resultError (NewPackage (brokenCollaborators nameControlTarGz) 2 []) =
      some (Error.external 1) := by
  decide

/-! ## `strings.Split` at a one-byte separator -/

theorem stringsIndex_byte_none (b : Nat) :
    ∀ s : List Nat, stringsIndex [b] s = none ↔ b ∉ s := by
  intro s
  induction s with
  | nil => simp [stringsIndex]
  | cons c s ih =>
    by_cases hc : c = b
    · subst hc
      simp [stringsIndex, startsWith]
    · have hc2 : ¬ b = c := fun h => hc h.symm
      simp [stringsIndex, startsWith, hc, hc2, ih]

theorem stringsIndex_byte_some (b : Nat) :
    ∀ (s : List Nat) (i : Nat), stringsIndex [b] s = some i →
      ∃ front back, s = front ++ b :: back ∧ b ∉ front ∧ front.length = i := by
  intro s
  induction s with
  | nil => intro i h; simp [stringsIndex] at h
  | cons c s ih =>
    intro i h
    by_cases hc : c = b
    · subst hc
      simp only [stringsIndex, startsWith, beq_self_eq_true, Bool.and_self, if_true,
        Option.some.injEq] at h
      exact ⟨[], s, rfl, by simp, by simpa using h⟩
    · simp only [stringsIndex, startsWith, beq_iff_eq, hc, Bool.and_true,
        Bool.false_eq_true, if_false, Option.map_eq_some', decide_False, Bool.false_and]
        at h
      obtain ⟨k, hk, rfl⟩ := h
      obtain ⟨front, back, hs, hn, hl⟩ := ih k hk
      refine ⟨c :: front, back, by rw [hs]; rfl, ?_, by simp [hl]⟩
      simp only [List.mem_cons, not_or]
      exact ⟨fun h => hc h.symm, hn⟩

theorem splitAtByte_of_not_mem (b : Nat) :
    ∀ s : List Nat, b ∉ s → splitAtByte b s = [s] := by
  intro s
  induction s with
  | nil => intro _; rfl
  | cons c s ih =>
    intro h
    simp only [List.mem_cons, not_or] at h
    have hc : ¬ c = b := fun hh => h.1 hh.symm
    simp [splitAtByte, hc, ih h.2]

theorem splitAtByte_append (b : Nat) (back : List Nat) :
    ∀ front : List Nat, b ∉ front →
      splitAtByte b (front ++ b :: back) = front :: splitAtByte b back := by
  intro front
  induction front with
  | nil => intro _; simp [splitAtByte]
  | cons c front ih =>
    intro h
    simp only [List.mem_cons, not_or] at h
    have hc : ¬ c = b := fun hh => h.1 hh.symm
    simp [splitAtByte, hc, ih h.2]

theorem genSplitLoop_byte (b : Nat) :
    ∀ (n : Nat) (s : List Nat), s.count b ≤ n → genSplitLoop [b] n s = splitAtByte b s := by
  intro n
  induction n with
  | zero =>
    intro s h
    have hn : b ∉ s := by
      intro hm
      have := List.count_pos_iff.2 hm
      omega
    simp [genSplitLoop, splitAtByte_of_not_mem b s hn]
  | succ n ih =>
    intro s h
    cases hi : stringsIndex [b] s with
    | none =>
      simp only [genSplitLoop, hi]
      exact (splitAtByte_of_not_mem b s ((stringsIndex_byte_none b s).1 hi)).symm
    | some i =>
      obtain ⟨front, back, hs, hn, hl⟩ := stringsIndex_byte_some b s i hi
      subst hs hl
      have hcount : back.count b ≤ n := by
        simp only [List.count_append, List.count_cons_self, List.count_eq_zero_of_not_mem hn]
          at h
        omega
      simp only [genSplitLoop, hi, List.length_singleton, List.take_left,
        splitAtByte_append b back front hn]
      rw [← ih back hcount]
      congr 2
      rw [List.drop_append_eq_append_drop]
      simp

theorem stringsCount_byte (b : Nat) :
    ∀ (fuel : Nat) (s : List Nat), s.length < fuel → stringsCount [b] fuel s = s.count b := by
  intro fuel
  induction fuel with
  | zero => intro s h; omega
  | succ fuel ih =>
    intro s h
    cases hi : stringsIndex [b] s with
    | none =>
      simp only [stringsCount, hi]
      exact (List.count_eq_zero_of_not_mem ((stringsIndex_byte_none b s).1 hi)).symm
    | some i =>
      obtain ⟨front, back, hs, hn, hl⟩ := stringsIndex_byte_some b s i hi
      subst hs hl
      have hdrop : List.drop (front.length + [b].length) (front ++ b :: back) = back := by
        rw [List.drop_append_eq_append_drop]
        simp
      have hlen : back.length < fuel := by
        simp only [List.length_append, List.length_cons] at h
        omega
      simp only [stringsCount, hi, hdrop, ih back hlen, List.count_append,
        List.count_cons_self, List.count_eq_zero_of_not_mem hn]
      omega

/-- For a one-byte separator, `strings.Split` cuts the text at every separator byte: the
count made first and the limit on the number of pieces leave no line out. -/
theorem stringsSplit_byte (b : Nat) (s : List Nat) :
    stringsSplit s [b] = splitAtByte b s := by
  unfold stringsSplit
  rw [stringsCount_byte b _ s (Nat.lt_succ_self _)]
  apply genSplitLoop_byte
  have := List.count_le_length b s
  omega

end Deb
